import Mathlib

/-!
Verification of the goldenMagic line-based JSON text editor
(`internal/jsonops/operation_add_to.go`, `internal/jsonops/operation_replace.go`,
`main.go`).

The Go code manipulates a JSON document as raw text: it splits the document
on `"\n"` into lines, scans lines with brace/bracket counters, and splices
whole new lines back in.  We embed the relevant functions over
`Str := List Char` (one Go `string` = one `Str`; one Go rune = one `Char`).

Abstractions, noted where used:
  * `json.Marshal value` (the caller-supplied value of `InsertJSONKeyValue`)
    is abstracted: our embedding takes the already-marshalled value text.
  * `json.Unmarshal` + `json.MarshalIndent` inside `InsertItemAfter`
    (validation and canonical reformatting of the new-object payload) is
    abstracted: `InsertItemAfterCore` takes the formatted payload text as a
    parameter and covers everything else of the Go function.
  * the filesystem of the batch wrappers is an association list.
-/

/-- A Go string as a list of runes. -/

abbrev Str := List Char

/-- Lift a Lean string literal into the embedding. -/

def str (s : String) : Str := s.data

/-- Go `unicode.IsSpace` restricted to the code points that can occur in
the documents we reason about (ASCII whitespace plus NEL and NBSP). -/

def goIsSpace (c : Char) : Bool :=
  c = ' ' || c = '\t' || c = '\n' || c = Char.ofNat 11 || c = Char.ofNat 12 ||
  c = '\r' || c = Char.ofNat 0x85 || c = Char.ofNat 0xA0

/-- Character class of `\s` in Go's regexp package: `[\t\n\f\r ]`. -/

def goRegexSpace (c : Char) : Bool :=
  c = '\t' || c = '\n' || c = Char.ofNat 12 || c = '\r' || c = ' '

/-- Go `strings.TrimSpace`. -/

def trimSpace (s : Str) : Str :=
  ((s.dropWhile goIsSpace).reverse.dropWhile goIsSpace).reverse

/-- Go `strings.TrimRight(s, " \t")`. -/

def trimRightTS (s : Str) : Str :=
  (s.reverse.dropWhile (fun c => c = ' ' || c = '\t')).reverse

/-- Leading run of spaces and tabs of a line (`getIndentation` in
`operation_replace.go`, and the inline loop in `InsertItemAfter`). -/

def getIndentation (s : Str) : Str :=
  s.takeWhile (fun c => c = ' ' || c = '\t')

/-- Count of a single character in a line (every `strings.Count` call in the
source counts a one-character substring). -/

def countChar (s : Str) (c : Char) : Nat :=
  s.countP (fun d => d = c)

/-- Go `strings.Contains(s, sub)`: substring containment. -/

def containsSub (s sub : Str) : Bool :=
  match s with
  | [] => sub.isPrefixOf ([] : Str)
  | _ :: tl => sub.isPrefixOf s || containsSub tl sub

/-- Go `strings.Contains(s, string(c))` for a single character. -/

def containsChar (s : Str) (c : Char) : Bool := s.contains c

/-- Everything of the line after the first occurrence of `c`
(the `line[colonIndex+1:]` slices, guarded by a `Contains` check). -/

def afterFirst (c : Char) (s : Str) : Str :=
  (s.dropWhile (fun d => d ≠ c)).drop 1

/-- Go `strings.Split(s, "\n")`. -/

def splitL : Str → List Str
  | [] => [[]]
  | c :: cs =>
    if c = '\n' then [] :: splitL cs
    else (c :: (splitL cs).headI) :: (splitL cs).tail

/-- Go `strings.Join(lines, "\n")`. -/

def joinL : List Str → Str
  | [] => []
  | [l] => l
  | l :: ls => l ++ '\n' :: joinL ls

/-! ## Line scanner (`operation_replace.go`) -/

/-- A key in double quotes, as built by the Go code with `` `"`+key+`"` ``. -/

def quoted (key : Str) : Str := '"' :: (key ++ ['"'])

/-- First character of the value is an ASCII digit
(`valueStart[0] >= '0' && valueStart[0] <= '9'`). -/

def digitLead : Str → Bool
  | [] => false
  | c :: _ => decide ('0' ≤ c) && decide (c ≤ '9')

/-- Character scan of one line for `findMatchingBracket`: `.inl ()` signals
that the depth reached zero on `closeChar`; `.inr` carries the updated
`(depth, inString, escaped)` state. -/

def scanBracketLine (oc cc : Char) : List Char → Int → Bool → Bool → Sum Unit (Int × Bool × Bool)
  | [], d, ins, esc => .inr (d, ins, esc)
  | ch :: rest, d, ins, esc =>
    if esc then scanBracketLine oc cc rest d ins false
    else if ch = '\\' && ins then scanBracketLine oc cc rest d ins true
    else if ch = '"' then scanBracketLine oc cc rest d (!ins) esc
    else if !ins && ch = oc then scanBracketLine oc cc rest (d + 1) ins esc
    else if !ins && ch = cc then
      (if d - 1 = 0 then .inl () else scanBracketLine oc cc rest (d - 1) ins esc)
    else scanBracketLine oc cc rest d ins esc

/-- Line loop of `findMatchingBracket`, carrying the absolute line index. -/

def findMatchingBracketAux (oc cc : Char) : List Str → Nat → Int → Bool → Bool → Option Nat
  | [], _, _, _, _ => none
  | line :: rest, i, d, ins, esc =>
    match scanBracketLine oc cc line d ins esc with
    | .inl _ => some i
    | .inr (d', ins', esc') => findMatchingBracketAux oc cc rest (i + 1) d' ins' esc'

/-- Go `findMatchingBracket(lines, startIndex, openChar, closeChar)`;
`none` stands for the Go `-1` not-found sentinel. -/

def findMatchingBracket (lines : List Str) (startIndex : Nat) (oc cc : Char) : Option Nat :=
  findMatchingBracketAux oc cc (lines.drop startIndex) startIndex 0 false false

/-- Go `findEndOfValue(lines, startIndex)`; `none` stands for `-1`. -/

def findEndOfValue (lines : List Str) (startIndex : Nat) : Option Nat :=
  let startLine := trimSpace (lines.getD startIndex [])
  if containsChar startLine ':' then
    let valueStart := trimSpace (afterFirst ':' startLine)
    if List.isPrefixOf ['"'] valueStart || (str "true").isPrefixOf valueStart ||
       (str "false").isPrefixOf valueStart || (str "null").isPrefixOf valueStart ||
       digitLead valueStart then
      some startIndex
    else if List.isPrefixOf ['['] valueStart then findMatchingBracket lines startIndex '[' ']'
    else if List.isPrefixOf ['{'] valueStart then findMatchingBracket lines startIndex '{' '}'
    else some startIndex
  else some startIndex

/-- Loop body of `isArrayOfObjects`; `afterStart` records `i > arrayStartLine`. -/

def isArrayOfObjectsAux : List Str → Int → Bool → Bool
  | [], _, _ => false
  | line :: rest, bd, afterStart =>
    let t := trimSpace line
    let bd' := bd + (countChar t '[' : Int) - countChar t ']'
    if bd' > 0 && containsChar t '{' then true
    else if bd' = 0 && afterStart then false
    else isArrayOfObjectsAux rest bd' true

/-- Go `isArrayOfObjects(lines, arrayStartLine)`. -/

def isArrayOfObjects (lines : List Str) (arrayStartLine : Nat) : Bool :=
  isArrayOfObjectsAux (lines.drop arrayStartLine) 0 false

/-- Loop body of `keyExistsInObject`. -/

def keyExistsInObjectAux (key : Str) (targetDepth : Int) : List Str → Int → Bool
  | [], _ => false
  | line :: rest, d =>
    let t := trimSpace line
    let d' := d + (countChar t '{' : Int) - countChar t '}'
    if d' = targetDepth && containsSub t (quoted key) && containsChar t ':' then true
    else if d' < targetDepth then false
    else keyExistsInObjectAux key targetDepth rest d'

/-- Go `keyExistsInObject(lines, key, startLine, targetDepth)`. -/

def keyExistsInObject (lines : List Str) (key : Str) (startLine : Nat) (targetDepth : Int) : Bool :=
  keyExistsInObjectAux key targetDepth (lines.drop startLine) 0

/-- Loop body of `keyExistsInArrayObjects`. -/

def keyExistsInArrayObjectsAux (key : Str) : List Str → Int → Int → Bool → Bool
  | [], _, _, _ => false
  | line :: rest, bd, brd, inArray =>
    let t := trimSpace line
    let bd' := bd + (countChar t '[' : Int) - countChar t ']'
    let brd' := brd + (countChar t '{' : Int) - countChar t '}'
    let inA := inArray || bd' > 0
    if inA && brd' > 0 && containsSub t (quoted key) && containsChar t ':' then true
    else if inA && bd' = 0 then false
    else keyExistsInArrayObjectsAux key rest bd' brd' inA

/-- Go `keyExistsInArrayObjects(lines, key, arrayStartLine)`. -/

def keyExistsInArrayObjects (lines : List Str) (key : Str) (arrayStartLine : Nat) : Bool :=
  keyExistsInArrayObjectsAux key (lines.drop arrayStartLine) 0 0 false

/-- Loop body of `detectIndentationForObject`: `some` is an early return with
the first property line's indentation, `none` falls through to the default. -/

def detectIndentationForObjectAux : List Str → Option Str
  | [] => none
  | line :: rest =>
    let t := trimSpace line
    if t = [] then detectIndentationForObjectAux rest
    else if containsChar t ':' && containsChar t '"' then some (getIndentation line)
    else if containsChar t '}' then none
    else detectIndentationForObjectAux rest

/-- Go `detectIndentationForObject(lines, objectStartLine)`. -/

def detectIndentationForObject (lines : List Str) (objectStartLine : Nat) : Str :=
  match detectIndentationForObjectAux (lines.drop (objectStartLine + 1)) with
  | some ind => ind
  | none => getIndentation (lines.getD objectStartLine []) ++ str "  "

/-- Loop body of `detectIndentationForArray`. -/

def detectIndentationForArrayAux : List Str → Option Str
  | [] => none
  | line :: rest =>
    let t := trimSpace line
    if t = [] then detectIndentationForArrayAux rest
    else if !(List.isPrefixOf [']'] t) then some (getIndentation line)
    else if containsChar t ']' then none
    else detectIndentationForArrayAux rest

/-- Go `detectIndentationForArray(lines, arrayStartLine)`. -/

def detectIndentationForArray (lines : List Str) (arrayStartLine : Nat) : Str :=
  match detectIndentationForArrayAux (lines.drop (arrayStartLine + 1)) with
  | some ind => ind
  | none => getIndentation (lines.getD arrayStartLine []) ++ str "  "

/-! ## Key-pattern matching (`regexp` uses in `operation_add_to.go`) -/

/-- Deterministic match of the Go regex `"key"\s*:` at the head of `s`
(`key` is inserted with `regexp.QuoteMeta`, so it is matched literally).
Returns the matched whitespace run and the remainder after the colon. -/

def patMatchKey (key : Str) (s : Str) : Option (Str × Str) :=
  if (quoted key).isPrefixOf s then
    let after := s.drop (key.length + 2)
    let ws := after.takeWhile goRegexSpace
    match after.dropWhile goRegexSpace with
    | ':' :: rem => some (ws, rem)
    | _ => none
  else none

/-- Go `regexp.MatchString` of `"key"\s*:` against a line: a match starting
at any position. -/

def hasKeyPattern (key : Str) : Str → Bool
  | [] => false
  | c :: tl => (patMatchKey key (c :: tl)).isSome || hasKeyPattern key tl

/-- Backward loop of `findContainingObjectStart`; the `Nat` argument is the
number of lines before the current position (Go's `i+1`). -/

def findContainingObjectStartAux (lines : List Str) : Nat → Int → Option Nat
  | 0, _ => none
  | i + 1, d =>
    let t := trimSpace (lines.getD i [])
    let ob := (countChar t '{' : Int)
    let cb := (countChar t '}' : Int)
    let d' := d + ob - cb
    if ob > 0 && d' > 0 then some i
    else findContainingObjectStartAux lines i d'

/-- Go `findContainingObjectStart(lines, targetLineIndex)`; `none` is `-1`. -/

def findContainingObjectStart (lines : List Str) (targetLineIndex : Nat) : Option Nat :=
  findContainingObjectStartAux lines targetLineIndex 0

/-- Go `checkIfKeyExists(lines, targetKey, newObjectKey)`: some line matching
`"targetKey"\s*:` has, inside its containing object and at its own
indentation, a line matching `"newObjectKey"\s*:`. -/

def checkIfKeyExists (lines : List Str) (targetKey newObjectKey : Str) : Bool :=
  (List.range lines.length).any fun i =>
    let line := lines.getD i []
    hasKeyPattern targetKey line &&
    (match findContainingObjectStart lines i with
     | none => false
     | some objectStartLine =>
       match findMatchingBracket lines objectStartLine '{' '}' with
       | none => false
       | some objectEndLine =>
         let targetIndentation := getIndentation line
         (List.range lines.length).any fun j =>
           decide (objectStartLine + 1 ≤ j) && decide (j < objectEndLine) &&
           decide (getIndentation (lines.getD j []) = targetIndentation) &&
           hasKeyPattern newObjectKey (lines.getD j []))

/-! ## Insertion engine (`operation_add_to.go`)

Result convention: the Go functions return `(string, error)`; we return
`Str × Option Str` — the returned text together with `some errorMessage`
on failure.  `insertIntoArrayObjects` can run off the end of the line
slice (`lines[i+1:]` with `i = len(lines)`), which panics in Go; that is
the outer `Option`'s `none`. -/

/-- First line index at or after `start` whose line satisfies `p`
(the `for i, line := range lines { if ... { ...; break } }` search loops;
the list argument is the lines from position `start`). -/

def findFirstIdx (p : Str → Bool) : List Str → Nat → Option Nat
  | [], _ => none
  | l :: ls, i => if p l then some i else findFirstIdx p ls (i + 1)

/-- Go `insertAtRoot(jsonStr, key, valueJSON)`. -/

def insertAtRoot (jsonStr key valueJSON : Str) : Str × Option Str :=
  let lines := splitL jsonStr
  if keyExistsInObject lines key 0 1 then
    (jsonStr, some (str "key '" ++ key ++ str "' already exists at root level"))
  else
    match findFirstIdx (fun line => containsChar (trimSpace line) '{') lines 0 with
    | none => (jsonStr, some (str "no opening brace found"))
    | some openBraceIndex =>
      let indent := detectIndentationForObject lines openBraceIndex
      let newPropertyLine := indent ++ quoted key ++ str ": " ++ valueJSON ++ [',']
      (joinL (lines.take (openBraceIndex + 1) ++ [newPropertyLine] ++
        lines.drop (openBraceIndex + 1)), none)

/-- Go `insertIntoObject(lines, objectLineIndex, key, valueJSON)`. -/

def insertIntoObject (lines : List Str) (objectLineIndex : Nat) (key valueJSON : Str) :
    Str × Option Str :=
  let oIdx :=
    if containsChar (lines.getD objectLineIndex []) '{' then objectLineIndex
    else
      match findFirstIdx (fun line => containsChar (trimSpace line) '{')
          (lines.drop (objectLineIndex + 1)) (objectLineIndex + 1) with
      | some i => i
      | none => objectLineIndex
  let indent := detectIndentationForObject lines oIdx
  let newPropertyLine := indent ++ quoted key ++ str ": " ++ valueJSON ++ [',']
  (joinL (lines.take (oIdx + 1) ++ [newPropertyLine] ++ lines.drop (oIdx + 1)), none)

/-- Go `insertIntoArrayValues(lines, arrayLineIndex, valueJSON)`. -/

def insertIntoArrayValues (lines : List Str) (arrayLineIndex : Nat) (valueJSON : Str) :
    Str × Option Str :=
  let bracketLineIndex :=
    if containsChar (lines.getD arrayLineIndex []) '[' then arrayLineIndex
    else
      match findFirstIdx (fun line => containsChar (trimSpace line) '[')
          (lines.drop (arrayLineIndex + 1)) (arrayLineIndex + 1) with
      | some i => i
      | none => arrayLineIndex
  let indent := detectIndentationForArray lines bracketLineIndex
  let newValueLine := indent ++ valueJSON ++ [',']
  (joinL (lines.take (bracketLineIndex + 1) ++ [newValueLine] ++
    lines.drop (bracketLineIndex + 1)), none)

/-- Main loop of `insertIntoArrayObjects`, structurally recursive on the
lines not yet processed (the first argument is `lines.drop i`).  `none` is
the Go panic on `lines[i+1:]` after the loop exhausts the slice without
closing the target array; on break the unprocessed remainder is appended
unchanged. -/

def insertIntoArrayObjectsLoop (lines : List Str) (key valueJSON : Str) (ali : Nat) :
    List Str → Nat → Int → Int → Bool → Option (List Str)
  | [], _, _, _, _ => none
  | line :: rest, i, bd, brd, inT =>
    let inT' := inT || (i == ali)
    if inT' then
      let t := trimSpace line
      let bd' := bd + (countChar t '[' : Int) - countChar t ']'
      let brd' := brd + (countChar t '{' : Int) - countChar t '}'
      let ins :=
        if bd' > 0 && decide (0 < countChar t '{') && containsChar t '{' then
          [detectIndentationForObject lines i ++ quoted key ++ str ": " ++ valueJSON ++ [',']]
        else []
      if bd' = 0 && decide (ali < i) then some (line :: (ins ++ rest))
      else
        match insertIntoArrayObjectsLoop lines key valueJSON ali rest (i + 1) bd' brd' true with
        | none => none
        | some out => some (line :: (ins ++ out))
    else
      match insertIntoArrayObjectsLoop lines key valueJSON ali rest (i + 1) bd brd inT' with
      | none => none
      | some out => some (line :: out)

/-- Go `insertIntoArrayObjects(lines, arrayLineIndex, key, valueJSON)`. -/

def insertIntoArrayObjects (lines : List Str) (arrayLineIndex : Nat) (key valueJSON : Str) :
    Option (Str × Option Str) :=
  if keyExistsInArrayObjects lines key arrayLineIndex then
    some (joinL lines,
      some (str "key '" ++ key ++ str "' already exists in one or more array objects"))
  else
    match insertIntoArrayObjectsLoop lines key valueJSON arrayLineIndex lines 0 0 0 false with
    | none => none
    | some res => some (joinL res, none)

/-- Go `insertAtContextPath(jsonStr, objectPath, key, valueJSON)`. -/

def insertAtContextPath (jsonStr objectPath key valueJSON : Str) : Option (Str × Option Str) :=
  let lines := splitL jsonStr
  match findFirstIdx (fun line =>
      containsSub line (quoted objectPath) && containsChar line ':') lines 0 with
  | none => some (jsonStr, some (str "path '" ++ objectPath ++ str "' not found"))
  | some targetLineIndex =>
    let targetLine := trimSpace (lines.getD targetLineIndex [])
    if containsChar targetLine ':' then
      let valueStart := trimSpace (afterFirst ':' targetLine)
      if List.isPrefixOf ['['] valueStart then
        if isArrayOfObjects lines targetLineIndex then
          insertIntoArrayObjects lines targetLineIndex key valueJSON
        else some (insertIntoArrayValues lines targetLineIndex valueJSON)
      else if List.isPrefixOf ['{'] valueStart then
        if keyExistsInObject lines key targetLineIndex 2 then
          some (jsonStr, some (str "key '" ++ key ++ str "' already exists in target object"))
        else some (insertIntoObject lines targetLineIndex key valueJSON)
      else
        some (jsonStr,
          some (str "target path '" ++ objectPath ++ str "' is not an object or array"))
    else some (jsonStr, some (str "invalid target line format"))

/-- Go `InsertJSONKeyValue(jsonStr, objectPath, key, value)`.  `json.Marshal`
of the caller's value is abstracted: `valueJSON` is the marshalled text. -/

def InsertJSONKeyValue (jsonStr objectPath key valueJSON : Str) : Option (Str × Option Str) :=
  if objectPath = [] then some (insertAtRoot jsonStr key valueJSON)
  else insertAtContextPath jsonStr objectPath key valueJSON

/-! ## After-insertion engine (`InsertItemAfter`) -/

/-- Conditional trailing comma for the line just before an insertion
(`strings.TrimRight(line, " \t") + ","`, skipped when the trimmed line
already ends in a comma). -/

def commaFix (l : Str) : Str :=
  if [','].isSuffixOf (trimSpace l) then l else trimRightTS l ++ [',']

/-- Apply `commaFix` at position `p`, only when `p < length - 1`
(the Go guard `insertIndex < len(result)-1`). -/

def commaFixAt : Nat → List Str → List Str
  | _, [] => []
  | 0, x :: xs => (if xs = [] then x else commaFix x) :: xs
  | p + 1, x :: xs => x :: commaFixAt p xs

/-- Splice a block of whole lines immediately after position `p`. -/

def spliceAfter (p : Nat) (block : List Str) (b : List Str) : List Str :=
  b.take (p + 1) ++ block ++ b.drop (p + 1)

/-- Indent the formatted payload lines: the first line carries
`"newObjectKey": `, continuation lines one extra indent unit. -/

def mkBlock (indentation newObjectKey : Str) (fmtLines : List Str) : List Str :=
  match fmtLines with
  | [] => []
  | first :: rest =>
    (indentation ++ quoted newObjectKey ++ str ": " ++ first) ::
      rest.map (fun line => indentation ++ str "  " ++ line)

/-- Loop of Go's `nextNonEmptyIndex` scan over the lines from position `j`
(the list argument is `res.drop j`). -/

def nextNonEmptyAux : List Str → Nat → Nat
  | [], j => j
  | l :: rest, j => if trimSpace l = [] then nextNonEmptyAux rest (j + 1) else j

/-- First non-blank line index at or after `j` (Go's `nextNonEmptyIndex`). -/

def nextNonEmptyFrom (res : List Str) (j : Nat) : Nat :=
  nextNonEmptyAux (res.drop j) j

/-- Trailing comma of the spliced block's last line, decided from the line
following the insertion position (skipped before a closing brace). -/

def adjustLastComma (block : List Str) (e : Nat) (res : List Str) : List Str :=
  match block.getLast? with
  | none => block
  | some lastNewLine =>
    if e + 1 < res.length && !([','].isSuffixOf (trimSpace lastNewLine)) then
      let nn := nextNonEmptyFrom res (e + 1)
      if nn < res.length && !(containsChar (trimSpace (res.getD nn [])) '}') then
        block.dropLast ++ [lastNewLine ++ [',']]
      else block
    else block

/-- One iteration of the `InsertItemAfter` occurrence loop: find the end of
the value, comma-fix that line, splice the indented block after it; skip
the occurrence when the end cannot be located. -/

def insertOccurrence (newObjectKey : Str) (fmtLines : List Str) (t : Nat)
    (res : List Str) : List Str :=
  match findEndOfValue res t with
  | none => res
  | some e =>
    let indentation := getIndentation (res.getD t [])
    let block := mkBlock indentation newObjectKey fmtLines
    let res' := commaFixAt e res
    let block' := adjustLastComma block e res'
    spliceAfter e block' res'

/-- Line indices containing `"targetKey"` and a colon (the occurrence scan
of `InsertItemAfter`, ascending order). -/

def targetOccurrences (lines : List Str) (targetKey : Str) : List Nat :=
  (List.range lines.length).filter fun i =>
    containsSub (lines.getD i []) (quoted targetKey) && containsChar (lines.getD i []) ':'

/-- Go `InsertItemAfter(jsonStr, targetKey, newObjectKey, newObjectJSON)`
with the payload normalisation abstracted: `fmtStr` stands for the output
of `json.MarshalIndent(json.Unmarshal(newObjectJSON), "", "  ")`; the
"invalid JSON for new object" branch (a failed `Unmarshal`) is outside
this embedding.  Occurrences are processed in descending line order
(`foldr` applies the innermost, largest index first). -/

def InsertItemAfterCore (jsonStr targetKey newObjectKey fmtStr : Str) : Str × Option Str :=
  let lines := splitL jsonStr
  if checkIfKeyExists lines targetKey newObjectKey then
    ([], some (str "object with key '" ++ newObjectKey ++ str "' already exists"))
  else
    let targetLineIndices := targetOccurrences lines targetKey
    if targetLineIndices = [] then
      ([], some (str "target key '" ++ targetKey ++ str "' not found"))
    else
      let fmtLines := splitL fmtStr
      (joinL (targetLineIndices.foldr (insertOccurrence newObjectKey fmtLines) lines), none)

/-! ## Key rename engine (`replaceKeysInText`) -/

/-- Fuelled scanner behind `replaceKeysInText`; the fuel only serves the
structural recursion and is irrelevant once it is at least the text length
(`rkRun_fuel_irrel`). -/

def rkRun (oldKey newKey : Str) : Nat → Str → Str × Nat
  | _, [] => ([], 0)
  | 0, s => (s, 0)
  | fuel + 1, c :: cs =>
    match patMatchKey oldKey (c :: cs) with
    | some (ws, rem) =>
      let p := rkRun oldKey newKey fuel rem
      (quoted newKey ++ ws ++ ':' :: p.1, p.2 + 1)
    | none =>
      let p := rkRun oldKey newKey fuel cs
      (c :: p.1, p.2)

/-- Go `replaceKeysInText(content, oldKey, newKey)`: the single pass of
`regexp.MustCompile("\"(oldKey)\"\\s*:").ReplaceAllStringFunc`, which walks
the text left to right, replaces each leftmost non-overlapping match
`"oldKey"<ws>:` by `"newKey"<ws>:` and counts the matches. -/

def replaceKeysInText (oldKey newKey content : Str) : Str × Nat :=
  rkRun oldKey newKey content.length content

/-! ## Batch wrappers (`main.go`) -/

/-- Modelled from the spec: the excluded file I/O collaborator
(`fileops.ReadFile` / `fileops.WriteFile`).  The filesystem is an
association list from path to content; writes always succeed; a failed
read surfaces a fixed error text (`ioReadErr`). -/

abbrev FS := List (Str × Str)

/-- Read a path's content; `none` is a read error. -/

def readFile : FS → Str → Option Str
  | [], _ => none
  | (a, b) :: fs, p => if a = p then some b else readFile fs p

/-- Overwrite a path's content. -/

def writeFile : FS → Str → Str → FS
  | [], _, _ => []
  | (a, b) :: fs, p, c => (if a = p then (p, c) else (a, b)) :: writeFile fs p c

/-- Modelled from the spec: the OS error text of a failed read. -/

def ioReadErr : Str := str "read failure"

/-- Per-file body of Go `AddJSONItemToFiles` (`main.go`): read, insert,
write, with the outcome strings built there.  `none` propagates the
`insertIntoArrayObjects` panic. -/

def addToFilesStep (fs : FS) (filePath objectPath key valueJSON : Str) :
    Option (Str × FS) :=
  match readFile fs filePath with
  | none => some (str "ERROR: error reading file: " ++ ioReadErr, fs)
  | some content =>
    match InsertJSONKeyValue content objectPath key valueJSON with
    | none => none
    | some (_, some e) => some (str "ERROR: error inserting JSON: " ++ e, fs)
    | some (updated, none) => some (str "SUCCESS", writeFile fs filePath updated)

/-- Go `AddJSONItemToFiles(filePaths, objectPath, key, value)`: the
per-file outcomes in order, plus the final filesystem. -/

def AddJSONItemToFiles (fs : FS) (filePaths : List Str) (objectPath key valueJSON : Str) :
    Option (List (Str × Str) × FS) :=
  match filePaths with
  | [] => some ([], fs)
  | p :: ps =>
    match addToFilesStep fs p objectPath key valueJSON with
    | none => none
    | some (outcome, fs') =>
      match AddJSONItemToFiles fs' ps objectPath key valueJSON with
      | none => none
      | some (rest, fs'') => some ((p, outcome) :: rest, fs'')

/-- Per-file body of Go `AddJSONItemAfter` (`main.go`): an insertion error
whose message contains "already exists" is reported as `SKIPPED:`, every
other failure as `ERROR:`. -/

def addAfterStep (fs : FS) (filePath targetKey newObjectKey fmtStr : Str) : Str × FS :=
  match readFile fs filePath with
  | none => (str "ERROR: reading file: " ++ ioReadErr, fs)
  | some content =>
    match InsertItemAfterCore content targetKey newObjectKey fmtStr with
    | (_, some e) =>
      if containsSub e (str "already exists") then (str "SKIPPED: " ++ e, fs)
      else (str "ERROR: inserting object: " ++ e, fs)
    | (updated, none) => (str "SUCCESS", writeFile fs filePath updated)

/-- Go `AddJSONItemAfter(filePaths, targetKey, newObjectKey, newObjectJSON)`
(payload normalisation abstracted as in `InsertItemAfterCore`). -/

def AddJSONItemAfter (fs : FS) (filePaths : List Str) (targetKey newObjectKey fmtStr : Str) :
    List (Str × Str) × FS :=
  match filePaths with
  | [] => ([], fs)
  | p :: ps =>
    let step := addAfterStep fs p targetKey newObjectKey fmtStr
    let rest := AddJSONItemAfter step.2 ps targetKey newObjectKey fmtStr
    ((p, step.1) :: rest.1, rest.2)

/-- Frame relation of C1 between the original document lines and a result:
the result arises from the original by keeping lines byte-identical,
splicing in whole new lines, and giving a kept line its conditional
trailing comma only when an inserted line immediately follows it. -/

inductive Frame : List Str → List Str → Prop where
  | nil : Frame [] []
  | keep (l : Str) {orig res : List Str} : Frame orig res → Frame (l :: orig) (l :: res)
  | skip (x : Str) {orig res : List Str} : Frame orig res → Frame orig (x :: res)
  | comma (l x : Str) {orig res : List Str} : Frame orig res →
      Frame (l :: orig) (commaFix l :: x :: res)

/-! ## Theorems -/

theorem splitL_ne_nil (s : Str) : splitL s ≠ [] := by
  cases s with
  | nil => simp [splitL]
  | cons c cs => by_cases hc : c = '\n' <;> simp [splitL, hc]

theorem joinL_cons_of_ne_nil (x : Str) (rest : List Str) (h : rest ≠ []) :
    joinL (x :: rest) = x ++ '\n' :: joinL rest := by
  cases rest with
  | nil => exact absurd rfl h
  | cons m ms => rfl

theorem joinL_splitL (s : Str) : joinL (splitL s) = s := by
  induction s with
  | nil => rfl
  | cons c cs ih =>
    obtain ⟨hd, tl, hsp⟩ : ∃ hd tl, splitL cs = hd :: tl := by
      cases h : splitL cs with
      | nil => exact absurd h (splitL_ne_nil cs)
      | cons hd tl => exact ⟨hd, tl, rfl⟩
    by_cases hc : c = '\n'
    · subst hc
      rw [show splitL ('\n' :: cs) = [] :: splitL cs by simp [splitL],
        joinL_cons_of_ne_nil _ _ (splitL_ne_nil cs), ih]
      rfl
    · rw [show splitL (c :: cs) = (c :: (splitL cs).headI) :: (splitL cs).tail by
        simp [splitL, hc]]
      rw [hsp] at ih ⊢
      cases tl with
      | nil => simpa [joinL] using congrArg (c :: ·) ih
      | cons m ms =>
        simp only [List.headI_cons, List.tail_cons]
        rw [joinL_cons_of_ne_nil _ _ (by simp)]
        rw [joinL_cons_of_ne_nil _ _ (by simp)] at ih
        simp only [List.cons_append]
        exact congrArg (c :: ·) ih

theorem splitL_append_newline (l : Str) (rest : Str) (hl : '\n' ∉ l) :
    splitL (l ++ '\n' :: rest) = l :: splitL rest := by
  induction l with
  | nil => simp [splitL]
  | cons c cs ih =>
    simp only [List.mem_cons, not_or] at hl
    have hc : ¬ c = '\n' := fun h => hl.1 h.symm
    have hih := ih hl.2
    simp [splitL, if_neg hc, hih]

theorem splitL_of_no_newline (l : Str) (hl : '\n' ∉ l) : splitL l = [l] := by
  induction l with
  | nil => rfl
  | cons c cs ih =>
    simp only [List.mem_cons, not_or] at hl
    have hc : ¬ c = '\n' := fun h => hl.1 h.symm
    simp [splitL, if_neg hc, ih hl.2]

theorem splitL_joinL (ls : List Str) (h : ls ≠ []) (hnl : ∀ l ∈ ls, '\n' ∉ l) :
    splitL (joinL ls) = ls := by
  induction ls with
  | nil => exact absurd rfl h
  | cons l ls ih =>
    cases ls with
    | nil => exact splitL_of_no_newline l (hnl l (by simp))
    | cons m ms =>
      rw [joinL_cons_of_ne_nil _ _ (by simp),
        splitL_append_newline l _ (hnl l (by simp)),
        ih (by simp) (fun x hx => hnl x (by simp [hx]))]

theorem mem_splitL_no_newline (s : Str) : ∀ l ∈ splitL s, '\n' ∉ l := by
  induction s with
  | nil => simp [splitL]
  | cons c cs ih =>
    obtain ⟨hd, tl, hsp⟩ : ∃ hd tl, splitL cs = hd :: tl := by
      cases h : splitL cs with
      | nil => exact absurd h (splitL_ne_nil cs)
      | cons hd tl => exact ⟨hd, tl, rfl⟩
    intro l hl
    by_cases hc : c = '\n'
    · subst hc
      simp only [splitL, if_pos rfl] at hl
      cases hl with
      | head => simp
      | tail _ h => exact ih l h
    · simp only [splitL, if_neg hc, hsp, List.headI_cons, List.tail_cons,
        List.mem_cons] at hl
      rcases hl with rfl | hl
      · intro hm
        rcases List.mem_cons.mp hm with h1 | h1
        · exact hc h1.symm
        · exact ih hd (by simp [hsp]) h1
      · exact ih l (by simp [hsp, hl])

theorem patMatchKey_rem_length_lt {key s : Str} {ws rem : Str}
    (h : patMatchKey key s = some (ws, rem)) : rem.length < s.length := by
  unfold patMatchKey at h
  split at h
  case isFalse => exact absurd h (by simp)
  case isTrue hp =>
    simp only [] at h
    have hlen : key.length + 2 ≤ s.length := by
      have := (List.isPrefixOf_iff_prefix.mp hp).length_le
      simpa [quoted] using this
    have hdwle : ((s.drop (key.length + 2)).dropWhile goRegexSpace).length ≤
        s.length - (key.length + 2) := by
      have := (List.dropWhile_sublist (p := goRegexSpace)
        (l := s.drop (key.length + 2))).length_le
      simpa using this
    cases hdw : (s.drop (key.length + 2)).dropWhile goRegexSpace with
    | nil => rw [hdw] at h; exact absurd h (by simp)
    | cons c tl =>
      rw [hdw] at h
      rw [hdw] at hdwle
      by_cases hc : c = ':'
      · subst hc
        simp only [Option.some.injEq, Prod.mk.injEq] at h
        have : rem = tl := h.2.symm
        subst this
        simp only [List.length_cons] at hdwle
        omega
      · have : (match c :: tl with
            | ':' :: rem => some ((s.drop (key.length + 2)).takeWhile goRegexSpace, rem)
            | _ => (none : Option (Str × Str))) = none := by
          cases c <;> simp_all
        rw [this] at h
        exact absurd h (by simp)

theorem rkRun_fuel_irrel (oldKey newKey : Str) :
    ∀ fuel₁ fuel₂ s, s.length ≤ fuel₁ → s.length ≤ fuel₂ →
      rkRun oldKey newKey fuel₁ s = rkRun oldKey newKey fuel₂ s := by
  intro fuel₁
  induction fuel₁ using Nat.strong_induction_on with
  | _ fuel₁ ih =>
    intro fuel₂ s h₁ h₂
    cases s with
    | nil => cases fuel₁ <;> cases fuel₂ <;> rfl
    | cons c cs =>
      cases fuel₁ with
      | zero => simp at h₁
      | succ f₁ =>
        cases fuel₂ with
        | zero => simp at h₂
        | succ f₂ =>
          simp only [rkRun]
          cases hm : patMatchKey oldKey (c :: cs) with
          | some p =>
            obtain ⟨ws, rem⟩ := p
            have hlt := patMatchKey_rem_length_lt hm
            simp only [List.length_cons] at h₁ h₂ hlt
            dsimp only
            rw [ih f₁ (by omega) f₂ rem (by omega) (by omega)]
          | none =>
            simp only [List.length_cons] at h₁ h₂
            dsimp only
            rw [ih f₁ (by omega) f₂ cs (by omega) (by omega)]

theorem replaceKeysInText_nil (oldKey newKey : Str) :
    replaceKeysInText oldKey newKey [] = ([], 0) := rfl

theorem replaceKeysInText_match {oldKey : Str} (newKey : Str) {c : Char} {cs ws rem : Str}
    (h : patMatchKey oldKey (c :: cs) = some (ws, rem)) :
    replaceKeysInText oldKey newKey (c :: cs) =
      (quoted newKey ++ ws ++ ':' :: (replaceKeysInText oldKey newKey rem).1,
       (replaceKeysInText oldKey newKey rem).2 + 1) := by
  have hlt := patMatchKey_rem_length_lt h
  simp only [List.length_cons] at hlt
  simp only [replaceKeysInText, List.length_cons, rkRun, h]
  rw [rkRun_fuel_irrel oldKey newKey cs.length rem.length rem (by omega) (by omega)]

theorem replaceKeysInText_nomatch {oldKey : Str} (newKey : Str) {c : Char} {cs : Str}
    (h : patMatchKey oldKey (c :: cs) = none) :
    replaceKeysInText oldKey newKey (c :: cs) =
      (c :: (replaceKeysInText oldKey newKey cs).1,
       (replaceKeysInText oldKey newKey cs).2) := by
  simp only [replaceKeysInText, List.length_cons, rkRun, h]

theorem findFirstIdx_spec (p : Str → Bool) :
    ∀ (l : List Str) (s i : Nat), findFirstIdx p l s = some i →
      s ≤ i ∧ i - s < l.length ∧ p (l.getD (i - s) []) = true ∧
      ∀ k, k < i - s → p (l.getD k []) = false := by
  intro l
  induction l with
  | nil => intro s i h; exact absurd h (by simp [findFirstIdx])
  | cons x xs ih =>
    intro s i h
    by_cases hx : p x
    · rw [show findFirstIdx p (x :: xs) s = some s by simp [findFirstIdx, hx]] at h
      obtain rfl : s = i := by simpa using h
      exact ⟨le_refl s, by simp, by simpa, fun k hk => absurd hk (by omega)⟩
    · rw [show findFirstIdx p (x :: xs) s = findFirstIdx p xs (s + 1) by
        simp [findFirstIdx, hx]] at h
      obtain ⟨hs, hlen, hp, hall⟩ := ih (s + 1) i h
      refine ⟨by omega, by simp; omega, ?_, ?_⟩
      · rw [show i - s = (i - (s + 1)) + 1 by omega]
        simpa using hp
      · intro k hk
        cases k with
        | zero => simpa using hx
        | succ k' =>
          have := hall k' (by omega)
          simpa using this

theorem findMatchingBracketAux_lt (oc cc : Char) :
    ∀ (rem : List Str) (i : Nat) (d : Int) (ins esc : Bool) (e : Nat),
      findMatchingBracketAux oc cc rem i d ins esc = some e →
      i ≤ e ∧ e < i + rem.length := by
  intro rem
  induction rem with
  | nil => intro i d ins esc e h; exact absurd h (by simp [findMatchingBracketAux])
  | cons line rest ih =>
    intro i d ins esc e h
    rw [findMatchingBracketAux] at h
    cases hscan : scanBracketLine oc cc line d ins esc with
    | inl u =>
      rw [hscan] at h
      obtain rfl : i = e := by simpa using h
      exact ⟨le_refl i, by simp only [List.length_cons]; omega⟩
    | inr st =>
      rw [hscan] at h
      obtain ⟨d', ins', esc'⟩ := st
      have := ih (i + 1) d' ins' esc' e h
      constructor
      · omega
      · simp only [List.length_cons]; omega

theorem findMatchingBracket_lt_length (lines : List Str) (s : Nat) (oc cc : Char) (e : Nat)
    (h : findMatchingBracket lines s oc cc = some e) : s ≤ e ∧ e < lines.length := by
  unfold findMatchingBracket at h
  have hb := findMatchingBracketAux_lt oc cc (lines.drop s) s 0 false false e h
  rcases hb with ⟨h1, h2⟩
  rw [List.length_drop] at h2
  exact ⟨h1, by omega⟩

/-- C7: the root-insertion example from the spec (and from the doc comment
of `InsertJSONKeyValue` itself) fails on the code: on the one-line document
`{"name": "test"}` the call succeeds but returns the text
`{"name": "test"}\n  "id": 123,` — a new line pasted after the single
line — which is not the documented `{"id": 123, "name": "test"}` and not
JSON-equivalent to it. -/
theorem root_insertion_single_line_bug :
    InsertJSONKeyValue (str "\x7b\"name\": \"test\"\x7d") (str "") (str "id") (str "123") =
      some (str "\x7b\"name\": \"test\"\x7d\n  \"id\": 123,", none) ∧
    str "\x7b\"name\": \"test\"\x7d\n  \"id\": 123," ≠ str "\x7b\"id\": 123, \"name\": \"test\"\x7d" :=
  ⟨by decide, by decide⟩

/-- C2: the duplicate guard for named-object insertion is ineffective: the
check `keyExistsInObject(lines, key, targetLineIndex, 2)` counts depth from
the target line itself, so the object's own properties sit at relative
depth 1, never 2.  Inserting `"y": 2` into object `"P"` twice succeeds both
times and produces a document whose `P` object has two `"y"` keys — the
second call was required to fail with "key 'y' already exists in target
object". -/
theorem object_scope_duplicate_guard_ineffective :
    InsertJSONKeyValue (str "\x7b\n  \"P\": \x7b\n    \"x\": 1\n  \x7d\n\x7d")
        (str "P") (str "y") (str "2") =
      some (str "\x7b\n  \"P\": \x7b\n    \"y\": 2,\n    \"x\": 1\n  \x7d\n\x7d", none) ∧
    InsertJSONKeyValue (str "\x7b\n  \"P\": \x7b\n    \"y\": 2,\n    \"x\": 1\n  \x7d\n\x7d")
        (str "P") (str "y") (str "2") =
      some (str "\x7b\n  \"P\": \x7b\n    \"y\": 2,\n    \"y\": 2,\n    \"x\": 1\n  \x7d\n\x7d", none) ∧
    (splitL (str "\x7b\n  \"P\": \x7b\n    \"y\": 2,\n    \"y\": 2,\n    \"x\": 1\n  \x7d\n\x7d")).countP
      (fun l => hasKeyPattern (str "y") l) = 2 :=
  ⟨by decide, by decide, by decide⟩

/-- C5: whenever `newObjectKey` already exists as a sibling of some
occurrence of `targetKey` — a line `j` inside the occurrence's containing
object, at the occurrence's indentation, matching `"newObjectKey"\s*:` —
`InsertItemAfter` fails with "object with key '<newObjectKey>' already
exists" before any insertion, returning no document. -/
theorem insert_item_after_duplicate_guard
    (jsonStr targetKey newObjectKey fmtStr : Str)
    (h : ∃ i j ostart oend,
      i < (splitL jsonStr).length ∧
      hasKeyPattern targetKey ((splitL jsonStr).getD i []) = true ∧
      findContainingObjectStart (splitL jsonStr) i = some ostart ∧
      findMatchingBracket (splitL jsonStr) ostart '{' '}' = some oend ∧
      ostart + 1 ≤ j ∧ j < oend ∧
      getIndentation ((splitL jsonStr).getD j []) =
        getIndentation ((splitL jsonStr).getD i []) ∧
      hasKeyPattern newObjectKey ((splitL jsonStr).getD j []) = true) :
    InsertItemAfterCore jsonStr targetKey newObjectKey fmtStr =
      ([], some (str "object with key '" ++ newObjectKey ++ str "' already exists")) := by
  obtain ⟨i, j, ostart, oend, hi, hki, hos, hoe, hj1, hj2, hind, hkj⟩ := h
  have hJlen : j < (splitL jsonStr).length :=
    Nat.lt_trans hj2 (findMatchingBracket_lt_length _ _ _ _ _ hoe).2
  have hc : checkIfKeyExists (splitL jsonStr) targetKey newObjectKey = true := by
    unfold checkIfKeyExists
    rw [List.any_eq_true]
    refine ⟨i, List.mem_range.mpr hi, ?_⟩
    simp only [hki, hos, hoe, Bool.true_and]
    rw [List.any_eq_true]
    refine ⟨j, List.mem_range.mpr hJlen, ?_⟩
    simp only [Bool.and_eq_true, decide_eq_true_eq]
    exact ⟨⟨⟨hj1, hj2⟩, hind⟩, hkj⟩
  unfold InsertItemAfterCore
  simp [hc]

/-- Witness for C5 on a concrete document where `"n"` is already a sibling
of the `"t"` occurrence. -/
theorem insert_item_after_duplicate_guard_witness :
    InsertItemAfterCore (str "\x7b\n  \"t\": 1,\n  \"n\": 2\n\x7d") (str "t") (str "n") (str "5") =
      ([], some (str "object with key '" ++ str "n" ++ str "' already exists")) :=
  insert_item_after_duplicate_guard _ _ _ _
    ⟨1, 2, 0, 3, by decide, by decide, by decide, by decide,
      by decide, by decide, by decide, by decide⟩

/-- C10: when `findEndOfValue` cannot locate the end of an occurrence's
value (the `-1` sentinel), `InsertItemAfter` silently skips that occurrence
and still returns success: (1) in general, once the duplicate guard passes
and at least one occurrence exists, the call returns no error regardless of
any unlocatable value ends; (2) concretely, on a document whose first
`"u"` occurrence has an unmatched `[` value, the call succeeds, modifies
the second occurrence, and leaves the first unmodified. -/
theorem end_not_found_skip :
    (∀ jsonStr targetKey newObjectKey fmtStr,
      checkIfKeyExists (splitL jsonStr) targetKey newObjectKey = false →
      targetOccurrences (splitL jsonStr) targetKey ≠ [] →
      (InsertItemAfterCore jsonStr targetKey newObjectKey fmtStr).2 = none) ∧
    (findEndOfValue (splitL (str "\x7b\n  \"u\": [,\n  \"u\": 3\n\x7d")) 1 = none ∧
     targetOccurrences (splitL (str "\x7b\n  \"u\": [,\n  \"u\": 3\n\x7d")) (str "u") = [1, 2] ∧
     InsertItemAfterCore (str "\x7b\n  \"u\": [,\n  \"u\": 3\n\x7d") (str "u") (str "s") (str "7") =
       (str "\x7b\n  \"u\": [,\n  \"u\": 3,\n  \"s\": 7\n\x7d", none)) := by
  constructor
  · intro jsonStr targetKey newObjectKey fmtStr hg hocc
    unfold InsertItemAfterCore
    simp [hg, hocc]
  · exact ⟨by decide, by decide, by decide⟩

/-- Witness for the universal part of C10 at a concrete input. -/
theorem end_not_found_skip_witness :
    (InsertItemAfterCore (str "\x7b\n  \"u\": [,\n  \"u\": 3\n\x7d") (str "u") (str "s")
      (str "7")).2 = none :=
  end_not_found_skip.1 _ _ _ _ (by decide) (by decide)

/-- C3 (amended): for a non-empty `objectPath`, `InsertJSONKeyValue`
resolves the insertion target by scanning for the first line (in document
order) that contains the entire `objectPath` as a quoted key — the path is
matched literally, not split at dots — together with a colon; when no line
matches, the call fails with "path '<objectPath>' not found" and returns
the document unchanged. -/
theorem context_key_resolution_uses_full_path
    (jsonStr objectPath key valueJSON : Str) (hne : objectPath ≠ []) :
    (∀ t, findFirstIdx (fun line =>
        containsSub line (quoted objectPath) && containsChar line ':')
        (splitL jsonStr) 0 = some t →
      t < (splitL jsonStr).length ∧
      (containsSub ((splitL jsonStr).getD t []) (quoted objectPath) &&
        containsChar ((splitL jsonStr).getD t []) ':') = true ∧
      ∀ k, k < t →
        (containsSub ((splitL jsonStr).getD k []) (quoted objectPath) &&
          containsChar ((splitL jsonStr).getD k []) ':') = false) ∧
    (findFirstIdx (fun line =>
        containsSub line (quoted objectPath) && containsChar line ':')
        (splitL jsonStr) 0 = none →
      InsertJSONKeyValue jsonStr objectPath key valueJSON =
        some (jsonStr, some (str "path '" ++ objectPath ++ str "' not found"))) := by
  constructor
  · intro t ht
    obtain ⟨_, hlen, hp, hall⟩ := findFirstIdx_spec _ _ _ _ ht
    simp only [Nat.sub_zero] at hlen hp hall
    exact ⟨hlen, hp, hall⟩
  · intro hnone
    unfold InsertJSONKeyValue
    rw [if_neg hne]
    simp only [insertAtContextPath, hnone]

/-- Counterexample for C3 as frozen: on a document holding `"b"` inside
`"a"`, the path `a.b` does not resolve to the first occurrence of key `"b"`
(which exists); the call fails with "path 'a.b' not found" because the
whole string `a.b` is looked up as one quoted key. -/
theorem context_key_resolution_counterexample :
    ((splitL (str "\x7b\n  \"a\": \x7b\n    \"b\": \x7b\n      \"c\": 1\n    \x7d\n  \x7d\n\x7d")).any
      (fun l => containsSub l (quoted (str "b")) && containsChar l ':') = true) ∧
    InsertJSONKeyValue (str "\x7b\n  \"a\": \x7b\n    \"b\": \x7b\n      \"c\": 1\n    \x7d\n  \x7d\n\x7d")
        (str "a.b") (str "k") (str "1") =
      some (str "\x7b\n  \"a\": \x7b\n    \"b\": \x7b\n      \"c\": 1\n    \x7d\n  \x7d\n\x7d",
        some (str "path 'a.b' not found")) :=
  ⟨by decide, by decide⟩

/-- Witness for C3 at a concrete document and path. -/
theorem context_key_resolution_witness :
    InsertJSONKeyValue (str "\x7b\n  \"x\": 1\n\x7d") (str "a.b") (str "k") (str "1") =
      some (str "\x7b\n  \"x\": 1\n\x7d",
        some (str "path '" ++ str "a.b" ++ str "' not found")) :=
  (context_key_resolution_uses_full_path _ _ _ _ (by decide)).2 (by decide)

/-- Counterexample for C4 as frozen, refuting both clauses.  Value-array
clause: inserting the value `\x7b"q":9\x7d` into the value-array `arr` succeeds
once, but the same call on the result fails — the inserted one-line object
flips the array's classification to array-of-objects and the `"k": \x7b` text
after the array's closing `]` trips the duplicate scan.  Array-of-objects
clause: on an array whose first object already has key `k` but is written
on a single line (`\x7b"k": 1\x7d`), the per-line brace count returns to zero
after that object, the duplicate scan sees no line at positive brace depth
and misses the key, and the insertion succeeds instead of failing — adding
a second `"k"` line — so "at least one object already has that key fails
for the whole array" is false in the code. -/
theorem array_insert_counterexample :
    InsertJSONKeyValue (str "\x7b\n  \"arr\": [\n    \"a\"\n  ], \"k\": \x7b\n  \x7d\n\x7d")
        (str "arr") (str "k") (str "\x7b\"q\":9\x7d") =
      some (str "\x7b\n  \"arr\": [\n    \x7b\"q\":9\x7d,\n    \"a\"\n  ], \"k\": \x7b\n  \x7d\n\x7d", none) ∧
    InsertJSONKeyValue (str "\x7b\n  \"arr\": [\n    \x7b\"q\":9\x7d,\n    \"a\"\n  ], \"k\": \x7b\n  \x7d\n\x7d")
        (str "arr") (str "k") (str "\x7b\"q\":9\x7d") =
      some (str "\x7b\n  \"arr\": [\n    \x7b\"q\":9\x7d,\n    \"a\"\n  ], \"k\": \x7b\n  \x7d\n\x7d",
        some (str "key 'k' already exists in one or more array objects")) ∧
    InsertJSONKeyValue
        (str "\x7b\n  \"os\": [\n    \x7b\"k\": 1\x7d,\n    \x7b\"m\": 2\x7d\n  ]\n\x7d")
        (str "os") (str "k") (str "3") =
      some (str "\x7b\n  \"os\": [\n    \x7b\"k\": 1\x7d,\n    \"k\": 3,\n    \x7b\"m\": 2\x7d\n      \"k\": 3,\n  ]\n\x7d",
        none) :=
  ⟨by decide, by decide, by decide⟩

/-- Counterexample for C6 as frozen: a successful `InsertItemAfter` call on
a document with exactly 3 line-level occurrences of `"t"` yields only 2
copies of the new object — the third occurrence's value end (an unmatched
`[`) cannot be located and the occurrence is skipped without error. -/
theorem after_insertion_multiplicity_counterexample :
    (targetOccurrences (splitL (str "\x7b\n  \"t\": 1,\n  \"t\": 2,\n  \"t\": [\n\x7d"))
      (str "t")).length = 3 ∧
    InsertItemAfterCore (str "\x7b\n  \"t\": 1,\n  \"t\": 2,\n  \"t\": [\n\x7d")
        (str "t") (str "x") (str "5") =
      (str "\x7b\n  \"t\": 1,\n  \"x\": 5,\n  \"t\": 2,\n  \"x\": 5,\n  \"t\": [\n\x7d", none) ∧
    (splitL (str "\x7b\n  \"t\": 1,\n  \"x\": 5,\n  \"t\": 2,\n  \"x\": 5,\n  \"t\": [\n\x7d")).countP
      (fun l => hasKeyPattern (str "x") l) = 2 :=
  ⟨by decide, by decide, by decide⟩

/-- Counterexample for C8 as frozen: in `{"A": 1, "B": 2}` the key `A` never
occurs as a value, yet renaming `A` to `B` and back does not restore the
document (the pre-existing `B` key is renamed too) and the replacement
counts differ (1 versus 2). -/
theorem rename_round_trip_counterexample :
    replaceKeysInText (str "A") (str "B") (str "\x7b\"A\": 1, \"B\": 2\x7d") =
      (str "\x7b\"B\": 1, \"B\": 2\x7d", 1) ∧
    replaceKeysInText (str "B") (str "A") (str "\x7b\"B\": 1, \"B\": 2\x7d") =
      (str "\x7b\"A\": 1, \"A\": 2\x7d", 2) ∧
    str "\x7b\"A\": 1, \"A\": 2\x7d" ≠ str "\x7b\"A\": 1, \"B\": 2\x7d" ∧ (1 : Nat) ≠ 2 :=
  ⟨by decide, by decide, by decide, by decide⟩

/-- Counterexample for C9 as frozen: a duplicate-conflict rejection in
`AddJSONItemToFiles` is reported with the `ERROR:` prefix, not the
`SKIPPED:` prefix the claim requires for duplicate-prevention outcomes. -/
theorem batch_outcome_counterexample :
    AddJSONItemToFiles [(str "f", str "\x7b\n  \"k\": 1\n\x7d")] [str "f"]
        (str "") (str "k") (str "1") =
      some ([(str "f",
        str "ERROR: error inserting JSON: key 'k' already exists at root level")],
        [(str "f", str "\x7b\n  \"k\": 1\n\x7d")]) ∧
    containsSub (str "ERROR: error inserting JSON: key 'k' already exists at root level")
      (str "already exists") = true ∧
    (str "SKIPPED: ").isPrefixOf
      (str "ERROR: error inserting JSON: key 'k' already exists at root level") = false :=
  ⟨by decide, by decide, by decide⟩

theorem isPrefixOf_append_self (a rest : Str) : a.isPrefixOf (a ++ rest) = true :=
  List.isPrefixOf_iff_prefix.mpr ⟨rest, rfl⟩

theorem readFile_writeFile_ne (fs : FS) (p c q : Str) (hq : q ≠ p) :
    readFile (writeFile fs p c) q = readFile fs q := by
  induction fs with
  | nil => rfl
  | cons e fs ih =>
    obtain ⟨a, b⟩ := e
    have hrf : ∀ (x y : Str) (l : FS),
        readFile ((x, y) :: l) q = if x = q then some y else readFile l q := fun _ _ _ => rfl
    by_cases hap : a = p
    · rw [show writeFile ((a, b) :: fs) p c = (p, c) :: writeFile fs p c by
        simp [writeFile, hap]]
      rw [hrf, hrf, if_neg (fun h : p = q => hq h.symm),
        if_neg (fun h : a = q => hq (hap ▸ h).symm)]
      exact ih
    · rw [show writeFile ((a, b) :: fs) p c = (a, b) :: writeFile fs p c by
        simp [writeFile, hap]]
      rw [hrf, hrf]
      by_cases haq : a = q
      · rw [if_pos haq, if_pos haq]
      · rw [if_neg haq, if_neg haq]
        exact ih

theorem addToFilesStep_outcome_congr (fs₁ fs₂ : FS) (p o k v : Str)
    (h : readFile fs₁ p = readFile fs₂ p) :
    (addToFilesStep fs₁ p o k v).map (·.1) = (addToFilesStep fs₂ p o k v).map (·.1) := by
  unfold addToFilesStep
  rw [h]
  cases readFile fs₂ p with
  | none => rfl
  | some content =>
    dsimp only
    cases InsertJSONKeyValue content o k v with
    | none => rfl
    | some pr =>
      obtain ⟨doc, err⟩ := pr
      cases err <;> rfl

theorem addToFilesStep_preserves_read (fs : FS) (p o k v outcome : Str) (fs' : FS) (q : Str)
    (h : addToFilesStep fs p o k v = some (outcome, fs')) (hq : q ≠ p) :
    readFile fs' q = readFile fs q := by
  unfold addToFilesStep at h
  cases hr : readFile fs p with
  | none =>
    rw [hr] at h
    dsimp only at h
    simp only [Option.some.injEq, Prod.mk.injEq] at h
    rw [← h.2]
  | some content =>
    rw [hr] at h
    dsimp only at h
    cases hins : InsertJSONKeyValue content o k v with
    | none => rw [hins] at h; exact absurd h (by simp)
    | some pr =>
      obtain ⟨doc, err⟩ := pr
      rw [hins] at h
      cases err with
      | none =>
        simp only [Option.some.injEq, Prod.mk.injEq] at h
        rw [← h.2]
        exact readFile_writeFile_ne fs p doc q hq
      | some e =>
        simp only [Option.some.injEq, Prod.mk.injEq] at h
        rw [← h.2]

theorem addAfterStep_outcome_congr (fs₁ fs₂ : FS) (p tk nk f : Str)
    (h : readFile fs₁ p = readFile fs₂ p) :
    (addAfterStep fs₁ p tk nk f).1 = (addAfterStep fs₂ p tk nk f).1 := by
  unfold addAfterStep
  rw [h]
  cases readFile fs₂ p with
  | none => rfl
  | some content =>
    dsimp only
    rcases hic : InsertItemAfterCore content tk nk f with ⟨doc, err⟩
    cases err with
    | none => rfl
    | some e => by_cases hd : containsSub e (str "already exists") <;> simp [hd]

theorem addAfterStep_preserves_read (fs : FS) (p tk nk f q : Str) (hq : q ≠ p) :
    readFile (addAfterStep fs p tk nk f).2 q = readFile fs q := by
  unfold addAfterStep
  cases readFile fs p with
  | none => rfl
  | some content =>
    dsimp only
    rcases hic : InsertItemAfterCore content tk nk f with ⟨doc, err⟩
    cases err with
    | none => exact readFile_writeFile_ne fs p doc q hq
    | some e =>
      by_cases hdup : containsSub e (str "already exists") <;> simp [hdup]

theorem addJSONItemToFiles_independent (objectPath key valueJSON : Str) :
    ∀ (paths : List Str) (fs fsRef : FS) (results : List (Str × Str)) (fsOut : FS),
      paths.Nodup →
      (∀ q ∈ paths, readFile fs q = readFile fsRef q) →
      AddJSONItemToFiles fs paths objectPath key valueJSON = some (results, fsOut) →
      ∀ pr ∈ results,
        (addToFilesStep fsRef pr.1 objectPath key valueJSON).map (·.1) = some pr.2 := by
  intro paths
  induction paths with
  | nil =>
    intro fs fsRef results fsOut _ _ h pr hpr
    simp only [AddJSONItemToFiles, Option.some.injEq, Prod.mk.injEq] at h
    rw [← h.1] at hpr
    simp at hpr
  | cons p ps ih =>
    intro fs fsRef results fsOut hnd hread h pr hpr
    rw [show AddJSONItemToFiles fs (p :: ps) objectPath key valueJSON =
        match addToFilesStep fs p objectPath key valueJSON with
        | none => none
        | some (outcome, fs') =>
          match AddJSONItemToFiles fs' ps objectPath key valueJSON with
          | none => none
          | some (rest, fs'') => some ((p, outcome) :: rest, fs'') from rfl] at h
    cases hstep : addToFilesStep fs p objectPath key valueJSON with
    | none => rw [hstep] at h; exact absurd h (by simp)
    | some st =>
      obtain ⟨outcome, fs₁⟩ := st
      rw [hstep] at h
      dsimp only at h
      cases hrest : AddJSONItemToFiles fs₁ ps objectPath key valueJSON with
      | none => rw [hrest] at h; exact absurd h (by simp)
      | some rt =>
        obtain ⟨rest, fs₂⟩ := rt
        rw [hrest] at h
        simp only [Option.some.injEq, Prod.mk.injEq] at h
        obtain ⟨h1, h2⟩ := h
        subst h1
        rcases List.mem_cons.mp hpr with rfl | hmem
        · show Option.map (fun x => x.1)
            (addToFilesStep fsRef p objectPath key valueJSON) = some outcome
          rw [addToFilesStep_outcome_congr fsRef fs p objectPath key valueJSON
            (hread p (by simp)).symm, hstep]
          rfl
        · have hnp : p ∉ ps := (List.nodup_cons.mp hnd).1
          refine ih fs₁ fsRef rest fs₂ (List.nodup_cons.mp hnd).2 ?_ hrest pr hmem
          intro q hq
          have hqp : q ≠ p := fun hh => hnp (hh ▸ hq)
          rw [addToFilesStep_preserves_read fs p objectPath key valueJSON outcome fs₁ q
            hstep hqp]
          exact hread q (by simp [hq])

theorem addJSONItemAfter_independent (targetKey newObjectKey fmtStr : Str) :
    ∀ (paths : List Str) (fs fsRef : FS),
      paths.Nodup →
      (∀ q ∈ paths, readFile fs q = readFile fsRef q) →
      ∀ pr ∈ (AddJSONItemAfter fs paths targetKey newObjectKey fmtStr).1,
        (addAfterStep fsRef pr.1 targetKey newObjectKey fmtStr).1 = pr.2 := by
  intro paths
  induction paths with
  | nil => intro fs fsRef _ _ pr hpr; simp [AddJSONItemAfter] at hpr
  | cons p ps ih =>
    intro fs fsRef hnd hread pr hpr
    rw [show (AddJSONItemAfter fs (p :: ps) targetKey newObjectKey fmtStr).1 =
        (p, (addAfterStep fs p targetKey newObjectKey fmtStr).1) ::
          (AddJSONItemAfter (addAfterStep fs p targetKey newObjectKey fmtStr).2 ps
            targetKey newObjectKey fmtStr).1 from rfl] at hpr
    rcases List.mem_cons.mp hpr with rfl | hmem
    · exact (addAfterStep_outcome_congr fsRef fs p targetKey newObjectKey fmtStr
        (hread p (by simp)).symm)
    · have hnp : p ∉ ps := (List.nodup_cons.mp hnd).1
      refine ih (addAfterStep fs p targetKey newObjectKey fmtStr).2 fsRef
        (List.nodup_cons.mp hnd).2 ?_ pr hmem
      intro q hq
      have hqp : q ≠ p := fun hh => hnp (hh ▸ hq)
      rw [addAfterStep_preserves_read fs p targetKey newObjectKey fmtStr q hqp]
      exact hread q (by simp [hq])

/-- C9 (amended): per-file batch outcomes fall into the three classes
`"SUCCESS"`, `ERROR:`-prefixed, `SKIPPED:`-prefixed; `AddJSONItemAfter`
reports duplicate-conflict rejections (insertion errors containing
"already exists") with the `SKIPPED:` prefix, while `AddJSONItemToFiles`
reports every insertion failure — duplicate conflicts included — with the
`ERROR:` prefix; and over pairwise-distinct file paths each file's
recorded outcome equals the outcome computed on the initial filesystem
alone, so no file's failure changes another file's outcome. -/
theorem batch_outcome_classes :
    (∀ (fs : FS) (p o k v outcome : Str) (fs' : FS),
      addToFilesStep fs p o k v = some (outcome, fs') →
      outcome = str "SUCCESS" ∨ (str "ERROR: ").isPrefixOf outcome = true) ∧
    (∀ (fs : FS) (p tk nk f : Str),
      (addAfterStep fs p tk nk f).1 = str "SUCCESS" ∨
      (str "ERROR: ").isPrefixOf (addAfterStep fs p tk nk f).1 = true ∨
      (str "SKIPPED: ").isPrefixOf (addAfterStep fs p tk nk f).1 = true) ∧
    (∀ (fs : FS) (p tk nk f content e : Str),
      readFile fs p = some content →
      (InsertItemAfterCore content tk nk f).2 = some e →
      containsSub e (str "already exists") = true →
      (addAfterStep fs p tk nk f).1 = str "SKIPPED: " ++ e) ∧
    (∀ (paths : List Str) (fs : FS) (o k v : Str) (results : List (Str × Str)) (fsOut : FS),
      paths.Nodup →
      AddJSONItemToFiles fs paths o k v = some (results, fsOut) →
      ∀ pr ∈ results, (addToFilesStep fs pr.1 o k v).map (·.1) = some pr.2) ∧
    (∀ (paths : List Str) (fs : FS) (tk nk f : Str),
      paths.Nodup →
      ∀ pr ∈ (AddJSONItemAfter fs paths tk nk f).1,
        (addAfterStep fs pr.1 tk nk f).1 = pr.2) := by
  refine ⟨?_, ?_, ?_, ?_, ?_⟩
  · intro fs p o k v outcome fs' h
    unfold addToFilesStep at h
    cases hr : readFile fs p with
    | none =>
      rw [hr] at h
      dsimp only at h
      simp only [Option.some.injEq, Prod.mk.injEq] at h
      right
      rw [← h.1]
      exact (by decide :
        (str "ERROR: ").isPrefixOf (str "ERROR: error reading file: " ++ ioReadErr) = true)
    | some content =>
      rw [hr] at h
      dsimp only at h
      cases hins : InsertJSONKeyValue content o k v with
      | none => rw [hins] at h; exact absurd h (by simp)
      | some pr =>
        obtain ⟨doc, err⟩ := pr
        rw [hins] at h
        cases err with
        | none =>
          simp only [Option.some.injEq, Prod.mk.injEq] at h
          left
          exact h.1.symm
        | some e =>
          simp only [Option.some.injEq, Prod.mk.injEq] at h
          right
          rw [← h.1]
          rw [show str "ERROR: error inserting JSON: " =
            str "ERROR: " ++ str "error inserting JSON: " by decide, List.append_assoc]
          exact isPrefixOf_append_self _ _
  · intro fs p tk nk f
    unfold addAfterStep
    cases readFile fs p with
    | none =>
      right; left
      exact (by decide :
        (str "ERROR: ").isPrefixOf (str "ERROR: reading file: " ++ ioReadErr) = true)
    | some content =>
      dsimp only
      rcases hic : InsertItemAfterCore content tk nk f with ⟨doc, err⟩
      cases err with
      | none => left; rfl
      | some e =>
        by_cases hd : containsSub e (str "already exists")
        · right; right
          simp only [hd, if_pos]
          rw [show str "SKIPPED: " ++ e = str "SKIPPED: " ++ e from rfl]
          exact isPrefixOf_append_self _ _
        · right; left
          simp only [hd, if_neg, Bool.false_eq_true, if_false]
          rw [show str "ERROR: inserting object: " =
            str "ERROR: " ++ str "inserting object: " by decide, List.append_assoc]
          exact isPrefixOf_append_self _ _
  · intro fs p tk nk f content e hr hcore hdup
    unfold addAfterStep
    rw [hr]
    dsimp only
    rcases hic : InsertItemAfterCore content tk nk f with ⟨doc, err⟩
    rw [hic] at hcore
    obtain rfl : err = some e := hcore
    simp [hdup]
  · intro paths fs o k v results fsOut hnd h
    exact addJSONItemToFiles_independent o k v paths fs fs results fsOut hnd
      (fun q _ => rfl) h
  · intro paths fs tk nk f hnd
    exact addJSONItemAfter_independent tk nk f paths fs fs hnd (fun q _ => rfl)

/-- Witness for C9 applying the outcome-class part at a concrete duplicate
conflict in `AddJSONItemToFiles`. -/
theorem batch_outcome_classes_witness :
    str "ERROR: error inserting JSON: key 'k' already exists at root level" =
      str "SUCCESS" ∨
    (str "ERROR: ").isPrefixOf
      (str "ERROR: error inserting JSON: key 'k' already exists at root level") = true :=
  batch_outcome_classes.1 [(str "f", str "\x7b\n  \"k\": 1\n\x7d")] (str "f") (str "")
    (str "k") (str "1")
    (str "ERROR: error inserting JSON: key 'k' already exists at root level")
    [(str "f", str "\x7b\n  \"k\": 1\n\x7d")] (by decide)

theorem mem_dropWhile_of_neg (p : Char → Bool) (c : Char) (hc : p c = false) :
    ∀ l : Str, c ∈ l → c ∈ l.dropWhile p := by
  intro l
  induction l with
  | nil => intro h; simp at h
  | cons a as ih =>
    intro h
    by_cases hpa : p a = true
    · rw [List.dropWhile_cons_of_pos hpa]
      rcases List.mem_cons.mp h with rfl | h2
      · rw [hpa] at hc; simp at hc
      · exact ih h2
    · rwa [List.dropWhile_cons_of_neg (by simpa using hpa)]

theorem mem_trimSpace_of (c : Char) (hc : goIsSpace c = false) (l : Str) (h : c ∈ l) :
    c ∈ trimSpace l := by
  unfold trimSpace
  have h1 : c ∈ l.dropWhile goIsSpace := mem_dropWhile_of_neg _ _ hc l h
  have h2 : c ∈ (l.dropWhile goIsSpace).reverse := by simpa using h1
  have h3 := mem_dropWhile_of_neg _ _ hc _ h2
  simpa using h3

theorem containsChar_iff_mem (l : Str) (c : Char) : containsChar l c = true ↔ c ∈ l := by
  simp [containsChar, List.elem_iff]

theorem containsChar_trimSpace_of (l : Str) (c : Char) (hc : goIsSpace c = false)
    (h : containsChar l c = true) : containsChar (trimSpace l) c = true :=
  (containsChar_iff_mem _ _).mpr (mem_trimSpace_of c hc l ((containsChar_iff_mem _ _).mp h))

theorem mem_of_mem_valueStart (l : Str) (c : Char)
    (h : c ∈ trimSpace (afterFirst ':' (trimSpace l))) : c ∈ l := by
  have h1 : c ∈ afterFirst ':' (trimSpace l) := by
    unfold trimSpace at h
    have := (List.dropWhile_sublist (p := goIsSpace)
      (l := ((afterFirst ':' (trimSpace l)).dropWhile goIsSpace).reverse)).subset
      (by simpa using h)
    have h2 := (List.dropWhile_sublist (p := goIsSpace)
      (l := afterFirst ':' (trimSpace l))).subset (by simpa using this)
    exact h2
  have h2 : c ∈ trimSpace l := by
    unfold afterFirst at h1
    have := List.drop_subset 1 ((trimSpace l).dropWhile (fun d => d ≠ ':')) h1
    exact (List.dropWhile_sublist (p := fun d => d ≠ ':') (l := trimSpace l)).subset this
  unfold trimSpace at h2
  have h3 := (List.dropWhile_sublist (p := goIsSpace)
    (l := (l.dropWhile goIsSpace).reverse)).subset (by simpa using h2)
  exact (List.dropWhile_sublist (p := goIsSpace) (l := l)).subset (by simpa using h3)

theorem findFirstIdx_append_found (p : Str → Bool) :
    ∀ (pre suf₁ suf₂ : List Str) (s t : Nat),
      findFirstIdx p (pre ++ suf₁) s = some t → t < s + pre.length →
      findFirstIdx p (pre ++ suf₂) s = some t := by
  intro pre
  induction pre with
  | nil =>
    intro suf₁ suf₂ s t h ht
    have hs := (findFirstIdx_spec p _ _ _ h).1
    simp only [List.length_nil, Nat.add_zero] at ht
    exact absurd hs (by omega)
  | cons x pre' ih =>
    intro suf₁ suf₂ s t h ht
    by_cases hx : p x = true
    · rw [show findFirstIdx p (x :: pre' ++ suf₁) s = some s by
        simp [findFirstIdx, hx]] at h
      rw [show findFirstIdx p (x :: pre' ++ suf₂) s = some s by
        simp [findFirstIdx, hx]]
      exact h
    · rw [show findFirstIdx p (x :: pre' ++ suf₁) s = findFirstIdx p (pre' ++ suf₁) (s + 1) by
        simp [findFirstIdx, hx]] at h
      rw [show findFirstIdx p (x :: pre' ++ suf₂) s = findFirstIdx p (pre' ++ suf₂) (s + 1) by
        simp [findFirstIdx, hx]]
      exact ih suf₁ suf₂ (s + 1) t h (by simp only [List.length_cons] at ht; omega)

theorem isArrayOfObjectsAux_true_of :
    ∀ (rem : List Str) (bd : Int) (aSt : Bool),
      isArrayOfObjectsAux rem bd aSt = false → isArrayOfObjectsAux rem bd true = false := by
  intro rem bd aSt h
  cases rem with
  | nil => rfl
  | cons l ls =>
    simp only [isArrayOfObjectsAux] at h ⊢
    split at h
    next hc1 => exact absurd h (by simp)
    next hc1 =>
      rw [if_neg hc1]
      split at h
      next hc2 =>
        simp only [Bool.and_eq_true, decide_eq_true_eq] at hc2
        rw [if_pos (by simp [hc2.1])]
      next hc2 =>
        by_cases hbd : bd + (countChar (trimSpace l) '[' : Int) - (countChar (trimSpace l) ']' : Int) = 0
        · rw [if_pos (by simp [hbd])]
        · rw [if_neg (by simp [hbd])]
          exact h

theorem isArrayOfObjectsAux_insert_neutral (x : Str)
    (hx1 : countChar (trimSpace x) '[' = 0) (hx2 : countChar (trimSpace x) ']' = 0)
    (hx3 : containsChar (trimSpace x) '{' = false) :
    ∀ (mid suf : List Str) (bd : Int) (aSt : Bool),
      isArrayOfObjectsAux (mid ++ suf) bd aSt = false →
      isArrayOfObjectsAux (mid ++ x :: suf) bd aSt = false := by
  intro mid
  induction mid with
  | nil =>
    intro suf bd aSt h
    simp only [List.nil_append] at h ⊢
    have hmono := isArrayOfObjectsAux_true_of suf bd aSt h
    simp only [isArrayOfObjectsAux, hx1, hx2, hx3]
    rw [if_neg (by simp)]
    split
    next => rfl
    next =>
      have hb : bd + ((0 : Nat) - (0 : Nat) : Int) = bd := by norm_num
      simpa [hb] using hmono
  | cons m mid' ih =>
    intro suf bd aSt h
    simp only [List.cons_append, isArrayOfObjectsAux] at h ⊢
    split at h
    next hc1 => exact absurd h (by simp)
    next hc1 =>
      rw [if_neg hc1]
      split at h
      next hc2 => rw [if_pos hc2]
      next hc2 =>
        rw [if_neg hc2]
        exact ih suf _ true h

theorem countChar_eq_zero_of_not_mem (l : Str) (c : Char) (h : c ∉ l) :
    countChar l c = 0 := by
  unfold countChar
  exact List.countP_eq_zero.mpr (fun a ha => by
    simp only [decide_eq_true_eq]
    exact fun he => h (he ▸ ha))

theorem mem_getIndentation (s : Str) (c : Char) (h : c ∈ getIndentation s) :
    c = ' ' ∨ c = '\t' := by
  have := List.mem_takeWhile_imp h
  simpa using this

theorem mem_detectIndentationForArrayAux (rem : List Str) (ind : Str)
    (h : detectIndentationForArrayAux rem = some ind) :
    ∃ line, ind = getIndentation line := by
  induction rem with
  | nil => exact absurd h (by simp [detectIndentationForArrayAux])
  | cons l ls ih =>
    rw [detectIndentationForArrayAux] at h
    split at h
    · exact ih h
    · split at h
      · exact ⟨l, by simpa using h.symm⟩
      · split at h
        · exact absurd h (by simp)
        · exact ih h

theorem mem_detectIndentationForArray (lines : List Str) (i : Nat) (c : Char)
    (h : c ∈ detectIndentationForArray lines i) : c = ' ' ∨ c = '\t' := by
  unfold detectIndentationForArray at h
  cases haux : detectIndentationForArrayAux (lines.drop (i + 1)) with
  | some ind =>
    rw [haux] at h
    obtain ⟨line, rfl⟩ := mem_detectIndentationForArrayAux _ _ haux
    exact mem_getIndentation _ _ h
  | none =>
    rw [haux] at h
    rcases List.mem_append.mp h with h1 | h1
    · exact mem_getIndentation _ _ h1
    · rcases List.mem_cons.mp h1 with rfl | h2
      · left; rfl
      · left
        rcases List.mem_cons.mp h2 with rfl | h3
        · rfl
        · exact absurd h3 (by simp)

theorem getD_eq_of_take_prefix (l : List Str) (t : Nat) (ht : t < l.length) (suf : List Str) :
    (l.take (t + 1) ++ suf).getD t [] = l.getD t [] := by
  have h1 : (l.take (t + 1) ++ suf)[t]? = (l.take (t + 1))[t]? := by
    rw [List.getElem?_append]
    rw [if_pos (by rw [List.length_take]; omega)]
  have h2 : (l.take (t + 1))[t]? = l[t]? := by
    rw [List.getElem?_take]
    simp
  simp only [List.getD, List.get?_eq_getElem?, h1, h2]

theorem trimSpace_subset (l : Str) : trimSpace l ⊆ l := by
  intro c hc
  unfold trimSpace at hc
  have h1 := (List.dropWhile_sublist (p := goIsSpace)
    (l := (l.dropWhile goIsSpace).reverse)).subset (by simpa using hc)
  exact (List.dropWhile_sublist (p := goIsSpace) (l := l)).subset (by simpa using h1)

theorem insertAtContextPath_value_array (jsonStr objectPath key v : Str) (t : Nat)
    (hfind : findFirstIdx (fun line =>
        containsSub line (quoted objectPath) && containsChar line ':')
        (splitL jsonStr) 0 = some t)
    (hcolon : containsChar (trimSpace ((splitL jsonStr).getD t [])) ':' = true)
    (hpre : List.isPrefixOf ['[']
        (trimSpace (afterFirst ':' (trimSpace ((splitL jsonStr).getD t [])))) = true)
    (haoo : isArrayOfObjects (splitL jsonStr) t = false) :
    insertAtContextPath jsonStr objectPath key v =
      some (insertIntoArrayValues (splitL jsonStr) t v) := by
  simp only [insertAtContextPath, hfind]
  rw [if_pos hcolon, if_pos hpre, haoo]
  simp only [Bool.false_eq_true, if_false]

theorem insertIntoArrayValues_eq (lines : List Str) (t : Nat) (v : Str)
    (hbr : containsChar (lines.getD t []) '[' = true) :
    insertIntoArrayValues lines t v =
      (joinL (lines.take (t + 1) ++ [detectIndentationForArray lines t ++ v ++ [',']] ++
        lines.drop (t + 1)), none) := by
  simp only [insertIntoArrayValues, hbr, if_pos]

theorem keyExistsInArrayObjectsAux_depth_blind (key : Str) :
    ∀ (rem : List Str) (bd brd : Int) (inA : Bool),
      (∀ k, k ≤ rem.length → (rem.take k).foldl
          (fun s l => s + (countChar (trimSpace l) '{' : Int) -
            countChar (trimSpace l) '}') brd ≤ 0) →
      keyExistsInArrayObjectsAux key rem bd brd inA = false := by
  intro rem
  induction rem with
  | nil => intro bd brd inA _; rfl
  | cons line rest ih =>
    intro bd brd inA h
    have hbrd : brd + (countChar (trimSpace line) '{' : Int)
        - countChar (trimSpace line) '}' ≤ 0 := by
      have h1 := h 1 (by simp)
      simpa using h1
    simp only [keyExistsInArrayObjectsAux]
    split
    case isTrue hcond =>
      exfalso
      simp only [Bool.and_eq_true, decide_eq_true_eq] at hcond
      have := hcond.1.1.2
      omega
    case isFalse =>
      split
      · rfl
      · apply ih
        intro k hk
        have hkk := h (k + 1) (by simpa using Nat.succ_le_succ hk)
        simpa [List.take_succ_cons, List.foldl_cons] using hkk

/-- C4 (amended): (a) inserting a value free of `[`, `]`, `\x7b` and newline
characters into a value-array twice with the same value succeeds both times
— no duplicate check is applied to value arrays; (b) when the line-based
duplicate scan of an array of objects reports the key, the insertion fails
for the whole array with "key ... already exists in one or more array
objects" and returns the document byte-identically unchanged; (c) that scan
only ever reports a key found on a line at positive running brace depth
(the depth counted after the line's own braces), so whenever the running
brace depth never becomes positive over the scanned lines — in particular
when every object of the array is written on a single line, as in
`\x7b"k": 1\x7d` — the scan returns false, no duplicate is detected, and the
insertion proceeds even though an object already has the key (the
counterexample exhibits the resulting successful duplicate insertion). -/
theorem array_insert_semantics :
    (∀ (jsonStr objectPath key valueJSON : Str) (t : Nat),
      objectPath ≠ [] →
      findFirstIdx (fun line =>
          containsSub line (quoted objectPath) && containsChar line ':')
        (splitL jsonStr) 0 = some t →
      List.isPrefixOf ['[']
        (trimSpace (afterFirst ':' (trimSpace ((splitL jsonStr).getD t [])))) = true →
      isArrayOfObjects (splitL jsonStr) t = false →
      (∀ c ∈ valueJSON, c ≠ '[' ∧ c ≠ ']' ∧ c ≠ '{' ∧ c ≠ '\n') →
      ∃ d₁ d₂, InsertJSONKeyValue jsonStr objectPath key valueJSON = some (d₁, none) ∧
        InsertJSONKeyValue d₁ objectPath key valueJSON = some (d₂, none)) ∧
    (∀ (jsonStr objectPath key valueJSON : Str) (t : Nat),
      objectPath ≠ [] →
      findFirstIdx (fun line =>
          containsSub line (quoted objectPath) && containsChar line ':')
        (splitL jsonStr) 0 = some t →
      List.isPrefixOf ['[']
        (trimSpace (afterFirst ':' (trimSpace ((splitL jsonStr).getD t [])))) = true →
      isArrayOfObjects (splitL jsonStr) t = true →
      keyExistsInArrayObjects (splitL jsonStr) key t = true →
      InsertJSONKeyValue jsonStr objectPath key valueJSON =
        some (jsonStr,
          some (str "key '" ++ key ++ str "' already exists in one or more array objects"))) ∧
    (∀ (lines : List Str) (key : Str) (ali : Nat),
      (∀ k, k ≤ (lines.drop ali).length → ((lines.drop ali).take k).foldl
          (fun s l => s + (countChar (trimSpace l) '{' : Int) -
            countChar (trimSpace l) '}') 0 ≤ 0) →
      keyExistsInArrayObjects lines key ali = false) := by
  refine ⟨?_, ?_, ?_⟩
  · intro jsonStr objectPath key valueJSON t hne hfind hpre haoo hv
    obtain ⟨-, hlt, hp, -⟩ := findFirstIdx_spec _ _ _ _ hfind
    simp only [Nat.sub_zero] at hlt hp
    have hcolon0 : containsChar ((splitL jsonStr).getD t []) ':' = true :=
      ((Bool.and_eq_true _ _).mp hp).2
    have hcolon : containsChar (trimSpace ((splitL jsonStr).getD t [])) ':' = true :=
      containsChar_trimSpace_of _ _ (by decide) hcolon0
    have hmem : '[' ∈ trimSpace (afterFirst ':' (trimSpace ((splitL jsonStr).getD t []))) := by
      obtain ⟨rest, hr⟩ := List.isPrefixOf_iff_prefix.mp hpre
      rw [← hr]; simp
    have hbr : containsChar ((splitL jsonStr).getD t []) '[' = true :=
      (containsChar_iff_mem _ _).mpr (mem_of_mem_valueStart _ _ hmem)
    set lines := splitL jsonStr with hlines
    set newLine : Str := detectIndentationForArray lines t ++ valueJSON ++ [','] with hnew
    set lines' : List Str := lines.take (t + 1) ++ [newLine] ++ lines.drop (t + 1) with hlines'
    have hfirst : InsertJSONKeyValue jsonStr objectPath key valueJSON =
        some (joinL lines', none) := by
      unfold InsertJSONKeyValue
      rw [if_neg hne, insertAtContextPath_value_array jsonStr objectPath key valueJSON t
        hfind hcolon hpre haoo, insertIntoArrayValues_eq _ _ _ hbr]
    have hnewmem : ∀ c, c ∈ newLine → c = ',' ∨ c = ' ' ∨ c = '\t' ∨ c ∈ valueJSON := by
      intro c hc
      rcases List.mem_append.mp hc with h1 | h1
      · rcases List.mem_append.mp h1 with h2 | h2
        · rcases mem_detectIndentationForArray _ _ _ h2 with h3 | h3
          · right; left; exact h3
          · right; right; left; exact h3
        · right; right; right; exact h2
      · left; simpa using h1
    have hnl' : ∀ l ∈ lines', '\n' ∉ l := by
      intro l hl
      rcases List.mem_append.mp hl with h1 | h1
      · rcases List.mem_append.mp h1 with h2 | h2
        · exact mem_splitL_no_newline jsonStr l (List.take_subset _ _ h2)
        · rcases List.mem_cons.mp h2 with rfl | h3
          · intro hmem2
            rcases hnewmem _ hmem2 with h4 | h4 | h4 | h4
            · simp at h4
            · simp at h4
            · simp at h4
            · exact (hv _ h4).2.2.2 rfl
          · exact absurd h3 (by simp)
      · exact mem_splitL_no_newline jsonStr l (List.drop_subset _ _ h1)
    have hsplit' : splitL (joinL lines') = lines' :=
      splitL_joinL lines' (by simp [hlines']) hnl'
    have hgetD : lines'.getD t [] = lines.getD t [] := by
      rw [hlines', List.append_assoc]
      exact getD_eq_of_take_prefix lines t hlt _
    have hfind' : findFirstIdx (fun line =>
        containsSub line (quoted objectPath) && containsChar line ':') lines' 0 = some t := by
      rw [hlines', List.append_assoc]
      refine findFirstIdx_append_found _ (lines.take (t + 1)) (lines.drop (t + 1)) _ 0 t ?_ ?_
      · rw [List.take_append_drop]
        exact hfind
      · rw [List.length_take]
        omega
    have htake : lines.take (t + 1) = lines.take t ++ [lines.getD t []] := by
      rw [List.take_succ]
      congr 1
      simp [List.getD, List.getElem?_eq_getElem hlt]
    have hdrop' : lines'.drop t = (lines.getD t []) :: newLine :: lines.drop (t + 1) := by
      rw [hlines', List.append_assoc, List.drop_append_eq_append_drop, htake,
        List.drop_append_eq_append_drop,
        List.drop_eq_nil_of_le (le_of_eq (by rw [List.length_take]; omega)),
        show (lines.take t).length = t by rw [List.length_take]; omega]
      simp only [Nat.sub_self, List.drop_zero, List.nil_append]
      rw [show t - (lines.take t ++ [lines.getD t []]).length = 0 by
        simp only [List.length_append, List.length_take, List.length_cons,
          List.length_nil]; omega]
      simp
    have hdropfact : lines.drop t = (lines.getD t []) :: lines.drop (t + 1) := by
      rw [List.drop_eq_getElem_cons hlt]
      congr 1
      simp [List.getD, List.getElem?_eq_getElem hlt]
    have hnot : ∀ c, c = '[' ∨ c = ']' ∨ c = '{' → c ∉ trimSpace newLine := by
      intro c hcform hmem2
      rcases hnewmem _ (trimSpace_subset _ hmem2) with h4 | h4 | h4 | h4
      · rcases hcform with rfl | rfl | rfl <;> simp at h4
      · rcases hcform with rfl | rfl | rfl <;> simp at h4
      · rcases hcform with rfl | rfl | rfl <;> simp at h4
      · rcases hcform with rfl | rfl | rfl
        · exact (hv _ h4).1 rfl
        · exact (hv _ h4).2.1 rfl
        · exact (hv _ h4).2.2.1 rfl
    have haoo' : isArrayOfObjects lines' t = false := by
      unfold isArrayOfObjects
      rw [hdrop']
      have hstart : isArrayOfObjectsAux ([lines.getD t []] ++ lines.drop (t + 1)) 0 false =
          false := by
        rw [show [lines.getD t []] ++ lines.drop (t + 1) =
          (lines.getD t []) :: lines.drop (t + 1) from rfl, ← hdropfact]
        exact haoo
      have hneutral := isArrayOfObjectsAux_insert_neutral newLine
        (countChar_eq_zero_of_not_mem _ _ (hnot '[' (by simp)))
        (countChar_eq_zero_of_not_mem _ _ (hnot ']' (by simp)))
        (Bool.eq_false_iff.mpr (fun h =>
          hnot '{' (by simp) ((containsChar_iff_mem _ _).mp h)))
        [lines.getD t []] (lines.drop (t + 1)) 0 false hstart
      simpa using hneutral
    refine ⟨joinL lines',
      joinL (lines'.take (t + 1) ++
        [detectIndentationForArray lines' t ++ valueJSON ++ [',']] ++
        lines'.drop (t + 1)), hfirst, ?_⟩
    unfold InsertJSONKeyValue
    rw [if_neg hne]
    rw [insertAtContextPath_value_array (joinL lines') objectPath key valueJSON t
      (by rw [hsplit']; exact hfind') (by rw [hsplit', hgetD]; exact hcolon)
      (by rw [hsplit', hgetD]; exact hpre) (by rw [hsplit']; exact haoo')]
    rw [hsplit']
    rw [insertIntoArrayValues_eq _ _ _ (by rw [hgetD]; exact hbr)]
  · intro jsonStr objectPath key valueJSON t hne hfind hpre haoo hex
    obtain ⟨-, hlt, hp, -⟩ := findFirstIdx_spec _ _ _ _ hfind
    simp only [Nat.sub_zero] at hlt hp
    have hcolon : containsChar (trimSpace ((splitL jsonStr).getD t [])) ':' = true :=
      containsChar_trimSpace_of _ _ (by decide) ((Bool.and_eq_true _ _).mp hp).2
    unfold InsertJSONKeyValue
    rw [if_neg hne]
    simp only [insertAtContextPath, hfind]
    rw [if_pos hcolon, if_pos hpre, if_pos haoo]
    unfold insertIntoArrayObjects
    rw [if_pos hex, joinL_splitL]
  · intro lines key ali h
    exact keyExistsInArrayObjectsAux_depth_blind key (lines.drop ali) 0 0 false h

/-- Witness for C4: inserting the string value `"x"` into a value-array
twice succeeds both times, the array-of-objects error fires on a document
where the scan finds the key inside a multi-line object, and the scan is
proved blind on the concrete one-line-object array whose running brace
depth never becomes positive. -/
theorem array_insert_witness :
    (∃ d₁ d₂,
      InsertJSONKeyValue (str "\x7b\n  \"arr\": [\n    \"a\"\n  ]\n\x7d")
        (str "arr") (str "k") (str "\"x\"") = some (d₁, none) ∧
      InsertJSONKeyValue d₁ (str "arr") (str "k") (str "\"x\"") = some (d₂, none)) ∧
    InsertJSONKeyValue (str "\x7b\n  \"os\": [\n    \x7b\n      \"k\": 1\n    \x7d\n  ]\n\x7d")
        (str "os") (str "k") (str "2") =
      some (str "\x7b\n  \"os\": [\n    \x7b\n      \"k\": 1\n    \x7d\n  ]\n\x7d",
        some (str "key '" ++ str "k" ++
          str "' already exists in one or more array objects")) ∧
    keyExistsInArrayObjects
      (splitL (str "\x7b\n  \"os\": [\n    \x7b\"k\": 1\x7d,\n    \x7b\"m\": 2\x7d\n  ]\n\x7d"))
      (str "k") 1 = false :=
  ⟨array_insert_semantics.1 _ _ _ _ 1 (by decide) (by decide) (by decide) (by decide)
      (by decide),
   array_insert_semantics.2.1 _ _ _ _ 1 (by decide) (by decide) (by decide) (by decide)
      (by decide),
   array_insert_semantics.2.2
      (splitL (str "\x7b\n  \"os\": [\n    \x7b\"k\": 1\x7d,\n    \x7b\"m\": 2\x7d\n  ]\n\x7d"))
      (str "k") 1 (by decide)⟩

theorem commaFixAt_length : ∀ (p : Nat) (b : List Str), (commaFixAt p b).length = b.length := by
  intro p
  induction p with
  | zero => intro b; cases b <;> simp [commaFixAt]
  | succ p ih =>
    intro b
    cases b with
    | nil => rfl
    | cons x xs => simp [commaFixAt, ih]

theorem spliceAfter_length (p : Nat) (bl b : List Str) :
    (spliceAfter p bl b).length = b.length + bl.length := by
  simp only [spliceAfter, List.length_append, List.length_take, List.length_drop]
  omega

theorem mkBlock_length (ind nk : Str) (fl : List Str) :
    (mkBlock ind nk fl).length = fl.length := by
  cases fl <;> simp [mkBlock]

theorem adjustLastComma_length (bl : List Str) (e : Nat) (res : List Str) :
    (adjustLastComma bl e res).length = bl.length := by
  cases hl : bl.getLast? with
  | none => unfold adjustLastComma; rw [hl]
  | some last =>
    unfold adjustLastComma
    rw [hl]
    dsimp only
    split
    · split
      · have hne : bl ≠ [] := by
          intro h
          rw [h] at hl
          simp at hl
        simp only [List.length_append, List.length_dropLast, List.length_cons,
          List.length_nil]
        have : 0 < bl.length := List.length_pos.mpr hne
        omega
      · rfl
    · rfl

theorem commaFixAt_take : ∀ (p : Nat) (b : List Str) (q : Nat), q ≤ p →
    (commaFixAt p b).take q = b.take q := by
  intro p
  induction p with
  | zero =>
    intro b q hq
    obtain rfl : q = 0 := by omega
    simp
  | succ p ih =>
    intro b q hq
    cases b with
    | nil => rfl
    | cons x xs =>
      cases q with
      | zero => simp
      | succ q' =>
        simp only [commaFixAt, List.take_succ_cons]
        rw [ih xs q' (by omega)]

theorem spliceAfter_take (p : Nat) (bl b : List Str) (q : Nat) (hq : q ≤ p + 1)
    (hqb : q ≤ b.length) : (spliceAfter p bl b).take q = b.take q := by
  unfold spliceAfter
  rw [List.take_append_eq_append_take]
  have hlen : (b.take (p + 1)).length = min (p + 1) b.length := List.length_take _ _
  have hq1 : q ≤ (b.take (p + 1)).length := by rw [hlen]; omega
  have hq2 : q - (b.take (p + 1) ++ bl).length = 0 := by
    rw [List.length_append]; omega
  rw [hq2]
  simp only [List.take_zero, List.append_nil]
  rw [List.take_append_eq_append_take]
  rw [show q - (b.take (p + 1)).length = 0 by omega]
  simp only [List.take_zero, List.append_nil]
  rw [List.take_take]
  congr 1
  omega

theorem insertOccurrence_of_found (nk : Str) (fl : List Str) (t e : Nat) (res : List Str)
    (h : findEndOfValue res t = some e) :
    insertOccurrence nk fl t res =
      spliceAfter e
        (adjustLastComma (mkBlock (getIndentation (res.getD t [])) nk fl) e
          (commaFixAt e res))
        (commaFixAt e res) := by
  simp [insertOccurrence, h]

theorem insertOccurrence_length (nk : Str) (fl : List Str) (t e : Nat) (res : List Str)
    (h : findEndOfValue res t = some e) :
    (insertOccurrence nk fl t res).length = res.length + fl.length := by
  rw [insertOccurrence_of_found nk fl t e res h, spliceAfter_length, commaFixAt_length,
    adjustLastComma_length, mkBlock_length]

theorem insertOccurrence_take (nk : Str) (fl : List Str) (t e : Nat) (res : List Str)
    (q : Nat) (h : findEndOfValue res t = some e) (hq : q ≤ e) (he : e < res.length) :
    (insertOccurrence nk fl t res).take q = res.take q := by
  rw [insertOccurrence_of_found nk fl t e res h,
    spliceAfter_take _ _ _ _ (by omega) (by rw [commaFixAt_length]; omega),
    commaFixAt_take e res q hq]

theorem getD_eq_of_take_eq (l₁ l₂ : List Str) (k i : Nat)
    (h : l₂.take k = l₁.take k) (hi : i < k) : l₂.getD i [] = l₁.getD i [] := by
  have h1 : l₂[i]? = (l₂.take k)[i]? := by rw [List.getElem?_take]; simp [hi]
  have h2 : l₁[i]? = (l₁.take k)[i]? := by rw [List.getElem?_take]; simp [hi]
  simp only [List.getD, List.get?_eq_getElem?, h1, h2, h]

theorem findMatchingBracketAux_congr (oc cc : Char) :
    ∀ (rem₁ rem₂ : List Str) (i : Nat) (d : Int) (ins esc : Bool) (e : Nat),
      findMatchingBracketAux oc cc rem₁ i d ins esc = some e →
      rem₂.take (e + 1 - i) = rem₁.take (e + 1 - i) →
      findMatchingBracketAux oc cc rem₂ i d ins esc = some e := by
  intro rem₁
  induction rem₁ with
  | nil => intro rem₂ i d ins esc e h _; exact absurd h (by simp [findMatchingBracketAux])
  | cons l₁ rest₁ ih =>
    intro rem₂ i d ins esc e h hagree
    have hie : i ≤ e := (findMatchingBracketAux_lt oc cc _ _ _ _ _ _ h).1
    have hsub : e + 1 - i = (e - i) + 1 := by omega
    rw [hsub] at hagree
    cases rem₂ with
    | nil => rw [List.take_nil] at hagree; exact absurd hagree.symm (by simp)
    | cons l₂ rest₂ =>
      simp only [List.take_succ_cons, List.cons.injEq] at hagree
      obtain ⟨hl, htail⟩ := hagree
      rw [hl]
      rw [findMatchingBracketAux] at h ⊢
      cases hscan : scanBracketLine oc cc l₁ d ins esc with
      | inl u => rw [hscan] at h; exact h
      | inr st =>
        obtain ⟨d', ins', esc'⟩ := st
        rw [hscan] at h
        dsimp only at h ⊢
        refine ih rest₂ (i + 1) d' ins' esc' e h ?_
        rw [show e + 1 - (i + 1) = e - i by omega]
        exact htail

theorem findEndOfValue_ge (l : List Str) (t e : Nat) (h : findEndOfValue l t = some e) :
    t ≤ e := by
  simp only [findEndOfValue] at h
  split at h
  · split at h
    · obtain rfl : t = e := by simpa using h
      exact le_refl t
    · split at h
      · exact (findMatchingBracket_lt_length _ _ _ _ _ h).1
      · split at h
        · exact (findMatchingBracket_lt_length _ _ _ _ _ h).1
        · obtain rfl : t = e := by simpa using h
          exact le_refl t
  · obtain rfl : t = e := by simpa using h
    exact le_refl t

theorem findEndOfValue_lt_length (l : List Str) (t e : Nat)
    (h : findEndOfValue l t = some e) (ht : t < l.length) : e < l.length := by
  simp only [findEndOfValue] at h
  split at h
  · split at h
    · obtain rfl : t = e := by simpa using h
      exact ht
    · split at h
      · exact (findMatchingBracket_lt_length _ _ _ _ _ h).2
      · split at h
        · exact (findMatchingBracket_lt_length _ _ _ _ _ h).2
        · obtain rfl : t = e := by simpa using h
          exact ht
  · obtain rfl : t = e := by simpa using h
    exact ht

theorem findMatchingBracket_congr (l₁ l₂ : List Str) (s : Nat) (oc cc : Char) (e : Nat)
    (h : findMatchingBracket l₁ s oc cc = some e)
    (hagree : l₂.take (e + 1) = l₁.take (e + 1)) :
    findMatchingBracket l₂ s oc cc = some e := by
  unfold findMatchingBracket at h ⊢
  refine findMatchingBracketAux_congr oc cc (l₁.drop s) (l₂.drop s) s 0 false false e h ?_
  have key : ∀ l : List Str, (l.drop s).take (e + 1 - s) = (l.take (e + 1)).drop s := by
    intro l
    rw [List.drop_take]
  rw [key, key, hagree]

theorem findEndOfValue_congr (l₁ l₂ : List Str) (t e : Nat)
    (h : findEndOfValue l₁ t = some e)
    (hagree : l₂.take (e + 1) = l₁.take (e + 1)) :
    findEndOfValue l₂ t = some e := by
  have hge := findEndOfValue_ge l₁ t e h
  have hgetD : l₂.getD t [] = l₁.getD t [] :=
    getD_eq_of_take_eq l₁ l₂ (e + 1) t hagree (by omega)
  simp only [findEndOfValue] at h ⊢
  rw [hgetD]
  split at h
  case isTrue hcol =>
    rw [if_pos hcol]
    split at h
    case isTrue hsimple => rw [if_pos hsimple]; exact h
    case isFalse hsimple =>
      rw [if_neg hsimple]
      split at h
      case isTrue hbr =>
        rw [if_pos hbr]
        exact findMatchingBracket_congr _ _ _ _ _ _ h hagree
      case isFalse hbr =>
        rw [if_neg hbr]
        split at h
        case isTrue hbr2 =>
          rw [if_pos hbr2]
          exact findMatchingBracket_congr _ _ _ _ _ _ h hagree
        case isFalse hbr2 => rw [if_neg hbr2]; exact h
  case isFalse hcol => rw [if_neg hcol]; exact h

theorem targetOccurrences_lt (lines : List Str) (k : Str) (i : Nat)
    (h : i ∈ targetOccurrences lines k) : i < lines.length := by
  unfold targetOccurrences at h
  exact List.mem_range.mp (List.mem_filter.mp h).1

/-- C6: for a document in which `targetKey` occurs exactly three times as a
line-level key occurrence, every occurrence's value end is locatable and the
value spans are disjoint (each span ends before the next occurrence's line),
a successful `InsertItemAfter` splices exactly three copies of the formatted
block, one after the end of each occurrence's value, processed in descending
line order, and the document grows by exactly three times the block's line
count. -/
theorem after_insertion_multiplicity
    (jsonStr targetKey newObjectKey fmtStr : Str)
    (t1 t2 t3 e1 e2 e3 : Nat)
    (hguard : checkIfKeyExists (splitL jsonStr) targetKey newObjectKey = false)
    (hocc : targetOccurrences (splitL jsonStr) targetKey = [t1, t2, t3])
    (h1 : findEndOfValue (splitL jsonStr) t1 = some e1)
    (h2 : findEndOfValue (splitL jsonStr) t2 = some e2)
    (h3 : findEndOfValue (splitL jsonStr) t3 = some e3)
    (hd1 : e1 < t2) (hd2 : e2 < t3) :
    ∃ fl : List Str,
      InsertItemAfterCore jsonStr targetKey newObjectKey fmtStr = (joinL fl, none) ∧
      fl = insertOccurrence newObjectKey (splitL fmtStr) t1
            (insertOccurrence newObjectKey (splitL fmtStr) t2
              (insertOccurrence newObjectKey (splitL fmtStr) t3 (splitL jsonStr))) ∧
      fl.length = (splitL jsonStr).length + 3 * (splitL fmtStr).length := by
  have ht3lt : t3 < (splitL jsonStr).length :=
    targetOccurrences_lt _ _ _ (by rw [hocc]; simp)
  have hge2 := findEndOfValue_ge _ _ _ h2
  have hge3 := findEndOfValue_ge _ _ _ h3
  have he3lt : e3 < (splitL jsonStr).length := findEndOfValue_lt_length _ _ _ h3 ht3lt
  have hlen3 : (insertOccurrence newObjectKey (splitL fmtStr) t3 (splitL jsonStr)).length
      = (splitL jsonStr).length + (splitL fmtStr).length :=
    insertOccurrence_length _ _ _ _ _ h3
  have h2' : findEndOfValue
      (insertOccurrence newObjectKey (splitL fmtStr) t3 (splitL jsonStr)) t2 = some e2 :=
    findEndOfValue_congr _ _ _ _ h2
      (insertOccurrence_take _ _ _ _ _ (e2 + 1) h3 (by omega) he3lt)
  have hlen2 : (insertOccurrence newObjectKey (splitL fmtStr) t2
        (insertOccurrence newObjectKey (splitL fmtStr) t3 (splitL jsonStr))).length
      = (insertOccurrence newObjectKey (splitL fmtStr) t3 (splitL jsonStr)).length
          + (splitL fmtStr).length :=
    insertOccurrence_length _ _ _ _ _ h2'
  have h1' : findEndOfValue (insertOccurrence newObjectKey (splitL fmtStr) t2
        (insertOccurrence newObjectKey (splitL fmtStr) t3 (splitL jsonStr))) t1 = some e1 := by
    refine findEndOfValue_congr _ _ _ _ h1 ?_
    rw [insertOccurrence_take _ _ _ _ _ (e1 + 1) h2' (by omega) (by omega),
      insertOccurrence_take _ _ _ _ _ (e1 + 1) h3 (by omega) he3lt]
  have hlen1 := insertOccurrence_length newObjectKey (splitL fmtStr) t1 _ _ h1'
  refine ⟨_, ?_, rfl, ?_⟩
  · simp [InsertItemAfterCore, hguard, hocc]
  · omega

theorem after_insertion_multiplicity_witness :
    ∃ fl : List Str,
      InsertItemAfterCore (str "\x7b\n  \"a\": 1,\n  \"a\": 2,\n  \"a\": 3\n\x7d")
          (str "a") (str "b") (str "\x7b\n  \"x\": 9\n\x7d") = (joinL fl, none) ∧
      fl = insertOccurrence (str "b") (splitL (str "\x7b\n  \"x\": 9\n\x7d")) 1
            (insertOccurrence (str "b") (splitL (str "\x7b\n  \"x\": 9\n\x7d")) 2
              (insertOccurrence (str "b") (splitL (str "\x7b\n  \"x\": 9\n\x7d")) 3
                (splitL (str "\x7b\n  \"a\": 1,\n  \"a\": 2,\n  \"a\": 3\n\x7d")))) ∧
      fl.length = (splitL (str "\x7b\n  \"a\": 1,\n  \"a\": 2,\n  \"a\": 3\n\x7d")).length
          + 3 * (splitL (str "\x7b\n  \"x\": 9\n\x7d")).length :=
  after_insertion_multiplicity _ _ _ _ 1 2 3 1 2 3 (by decide) (by decide) (by decide)
    (by decide) (by decide) (by decide) (by decide)

theorem takeWhile_space_colon (ws rem : Str) :
    (∀ w ∈ ws, goRegexSpace w = true) →
    (ws ++ ':' :: rem).takeWhile goRegexSpace = ws ∧
    (ws ++ ':' :: rem).dropWhile goRegexSpace = ':' :: rem := by
  induction ws with
  | nil =>
    intro _
    constructor
    · simp [List.takeWhile_cons, show goRegexSpace ':' = false from by decide]
    · simp [List.dropWhile_cons, show goRegexSpace ':' = false from by decide]
  | cons w ws' ih =>
    intro hws
    have hw : goRegexSpace w = true := hws w (by simp)
    obtain ⟨ih1, ih2⟩ := ih (fun x hx => hws x (by simp [hx]))
    constructor
    · simp [List.cons_append, List.takeWhile_cons, hw, ih1]
    · simp [List.cons_append, List.dropWhile_cons, hw, ih2]

theorem patMatchKey_some_eq {key s ws rem : Str} (h : patMatchKey key s = some (ws, rem)) :
    s = quoted key ++ (ws ++ ':' :: rem) ∧ ∀ w ∈ ws, goRegexSpace w = true := by
  unfold patMatchKey at h
  split at h
  case isFalse => exact absurd h (by simp)
  case isTrue hp =>
    simp only [] at h
    obtain ⟨t, ht⟩ := List.isPrefixOf_iff_prefix.mp hp
    have hdrop : s.drop (key.length + 2) = t := by
      rw [← ht, show key.length + 2 = (quoted key).length from by simp [quoted], List.drop_left]
    rw [hdrop] at h
    cases hdw : t.dropWhile goRegexSpace with
    | nil => rw [hdw] at h; exact absurd h (by simp)
    | cons c tl =>
      rw [hdw] at h
      by_cases hc : c = ':'
      · subst hc
        simp only [Option.some.injEq, Prod.mk.injEq] at h
        obtain ⟨hws, hrem⟩ := h
        constructor
        · rw [← ht]
          congr 1
          rw [← hws, ← hrem, ← hdw, List.takeWhile_append_dropWhile]
        · intro w hw
          exact List.mem_takeWhile_imp (by rw [hws]; exact hw)
      · exfalso
        have hnone : (match c :: tl with
            | ':' :: rem => some (t.takeWhile goRegexSpace, rem)
            | _ => (none : Option (Str × Str))) = none := by
          cases c <;> simp_all
        rw [hnone] at h
        exact absurd h (by simp)

theorem patMatchKey_build (key ws rem : Str) (hws : ∀ w ∈ ws, goRegexSpace w = true) :
    patMatchKey key (quoted key ++ (ws ++ ':' :: rem)) = some (ws, rem) := by
  have hpre : (quoted key).isPrefixOf (quoted key ++ (ws ++ ':' :: rem)) = true :=
    List.isPrefixOf_iff_prefix.mpr ⟨_, rfl⟩
  have hdrop : (quoted key ++ (ws ++ ':' :: rem)).drop (key.length + 2) = ws ++ ':' :: rem := by
    rw [show key.length + 2 = (quoted key).length from by simp [quoted], List.drop_left]
  obtain ⟨h1, h2⟩ := takeWhile_space_colon ws rem hws
  simp [patMatchKey, hpre, hdrop, h1, h2]

theorem hasKeyPattern_append_false (key t u : Str)
    (h : hasKeyPattern key (t ++ u) = false) : hasKeyPattern key u = false := by
  induction t with
  | nil => simpa using h
  | cons c t' ih =>
    rw [List.cons_append] at h
    simp only [hasKeyPattern, Bool.or_eq_false_iff] at h
    exact ih h.2

theorem fwd_wsrun_reflect (A B : Str) :
    ∀ n (s : Str), s.length ≤ n → ∀ ws rest,
      (replaceKeysInText A B s).1 = ws ++ ':' :: rest →
      (∀ w ∈ ws, goRegexSpace w = true) →
      ∃ ws₂ rest₂, s = ws₂ ++ ':' :: rest₂ ∧ ∀ w ∈ ws₂, goRegexSpace w = true := by
  intro n
  induction n with
  | zero =>
    intro s hs ws rest heq _
    obtain rfl : s = [] := List.length_eq_zero.mp (Nat.le_zero.mp hs)
    rw [replaceKeysInText_nil] at heq
    exact absurd heq (by cases ws <;> simp)
  | succ n ih =>
    intro s hs ws rest heq hws
    cases s with
    | nil =>
      rw [replaceKeysInText_nil] at heq
      exact absurd heq (by cases ws <;> simp)
    | cons c cs =>
      cases hm : patMatchKey A (c :: cs) with
      | some p =>
        obtain ⟨ws0, rem0⟩ := p
        rw [replaceKeysInText_match B hm] at heq
        dsimp only at heq
        rw [show quoted B ++ ws0 ++ ':' :: (replaceKeysInText A B rem0).1 =
            '"' :: ((B ++ ['"']) ++ (ws0 ++ ':' :: (replaceKeysInText A B rem0).1))
          from by simp [quoted]] at heq
        cases ws with
        | nil =>
          simp only [List.nil_append, List.cons.injEq] at heq
          exact absurd heq.1 (by decide)
        | cons w ws' =>
          simp only [List.cons_append, List.cons.injEq] at heq
          have hw := hws w (by simp)
          rw [← heq.1] at hw
          exact absurd hw (by decide)
      | none =>
        rw [replaceKeysInText_nomatch B hm] at heq
        dsimp only at heq
        cases ws with
        | nil =>
          simp only [List.nil_append, List.cons.injEq] at heq
          exact ⟨[], cs, by rw [heq.1]; rfl, by simp⟩
        | cons w ws' =>
          simp only [List.cons_append, List.cons.injEq] at heq
          obtain ⟨hcw, hFcs⟩ := heq
          obtain ⟨ws₂, rest₂, hcs, hws₂⟩ := ih cs
            (by simp only [List.length_cons] at hs; omega) ws' rest hFcs
            (fun x hx => hws x (by simp [hx]))
          refine ⟨w :: ws₂, rest₂, by rw [hcw, hcs]; rfl, ?_⟩
          intro x hx
          rcases List.mem_cons.mp hx with rfl | hx'
          · exact hws x (by simp)
          · exact hws₂ x hx'

theorem fwd_fragment_reflect (A B : Str) (hBne : B ≠ [])
    (hBsane : ∀ c ∈ B, c ≠ '"' ∧ c ≠ ':' ∧ goRegexSpace c = false) :
    ∀ n (s : Str), s.length ≤ n →
      ∀ b2, (∀ c ∈ b2, c ≠ '"' ∧ c ≠ ':' ∧ goRegexSpace c = false) →
      ∀ ws rest, (replaceKeysInText A B s).1 = b2 ++ '"' :: (ws ++ ':' :: rest) →
      (∀ w ∈ ws, goRegexSpace w = true) →
      ∃ ws₂ rest₂, s = b2 ++ '"' :: (ws₂ ++ ':' :: rest₂) ∧
        ∀ w ∈ ws₂, goRegexSpace w = true := by
  intro n
  induction n with
  | zero =>
    intro s hs b2 _ ws rest heq _
    obtain rfl : s = [] := List.length_eq_zero.mp (Nat.le_zero.mp hs)
    rw [replaceKeysInText_nil] at heq
    exact absurd heq (by cases b2 <;> simp)
  | succ n ih =>
    intro s hs b2 hb2 ws rest heq hws
    cases s with
    | nil =>
      rw [replaceKeysInText_nil] at heq
      exact absurd heq (by cases b2 <;> simp)
    | cons c cs =>
      cases hm : patMatchKey A (c :: cs) with
      | some p =>
        obtain ⟨ws0, rem0⟩ := p
        rw [replaceKeysInText_match B hm] at heq
        dsimp only at heq
        rw [show quoted B ++ ws0 ++ ':' :: (replaceKeysInText A B rem0).1 =
            '"' :: ((B ++ ['"']) ++ (ws0 ++ ':' :: (replaceKeysInText A B rem0).1))
          from by simp [quoted]] at heq
        cases b2 with
        | nil =>
          simp only [List.nil_append, List.cons.injEq] at heq
          obtain ⟨-, heq2⟩ := heq
          cases hB : B with
          | nil => exact absurd hB hBne
          | cons b B' =>
            rw [hB] at heq2
            simp only [List.cons_append] at heq2
            have hb := hBsane b (by rw [hB]; simp)
            cases ws with
            | nil =>
              simp only [List.nil_append, List.cons.injEq] at heq2
              exact absurd heq2.1 hb.2.1
            | cons w ws' =>
              simp only [List.cons_append, List.cons.injEq] at heq2
              have hw := hws w (by simp)
              rw [← heq2.1] at hw
              rw [hw] at hb
              exact absurd hb.2.2 (by simp)
        | cons d b2' =>
          simp only [List.cons_append, List.cons.injEq] at heq
          have hd := hb2 d (by simp)
          exact absurd heq.1.symm hd.1
      | none =>
        rw [replaceKeysInText_nomatch B hm] at heq
        dsimp only at heq
        cases b2 with
        | nil =>
          simp only [List.nil_append, List.cons.injEq] at heq
          obtain ⟨hcq, hFcs⟩ := heq
          obtain ⟨ws₂, rest₂, hcs, hws₂⟩ := fwd_wsrun_reflect A B cs.length cs le_rfl
            ws rest hFcs hws
          exact ⟨ws₂, rest₂, by rw [hcq, hcs]; rfl, hws₂⟩
        | cons d b2' =>
          simp only [List.cons_append, List.cons.injEq] at heq
          obtain ⟨hcd, hFcs⟩ := heq
          obtain ⟨ws₂, rest₂, hcs, hws₂⟩ := ih cs
            (by simp only [List.length_cons] at hs; omega) b2'
            (fun x hx => hb2 x (by simp [hx])) ws rest hFcs hws
          exact ⟨ws₂, rest₂, by rw [hcd, hcs]; rfl, hws₂⟩

theorem rename_round_trip_aux (A B : Str) (hBne : B ≠ [])
    (hBsane : ∀ c ∈ B, c ≠ '"' ∧ c ≠ ':' ∧ goRegexSpace c = false) :
    ∀ n (D : Str), D.length ≤ n → hasKeyPattern B D = false →
      replaceKeysInText B A (replaceKeysInText A B D).1 =
        (D, (replaceKeysInText A B D).2) := by
  intro n
  induction n with
  | zero =>
    intro D hD _
    obtain rfl : D = [] := List.length_eq_zero.mp (Nat.le_zero.mp hD)
    simp [replaceKeysInText_nil]
  | succ n ih =>
    intro D hD hno
    cases D with
    | nil => simp [replaceKeysInText_nil]
    | cons c cs =>
      cases hm : patMatchKey A (c :: cs) with
      | some p =>
        obtain ⟨ws, rem⟩ := p
        obtain ⟨hdec, hws⟩ := patMatchKey_some_eq hm
        have hlt := patMatchKey_rem_length_lt hm
        have hrem_no : hasKeyPattern B rem = false := by
          apply hasKeyPattern_append_false B (quoted A ++ (ws ++ [':'])) rem
          rw [show (quoted A ++ (ws ++ [':'])) ++ rem = quoted A ++ (ws ++ ':' :: rem)
            from by simp]
          rw [← hdec]
          exact hno
        have hih := ih rem
          (by simp only [List.length_cons] at hD hlt; omega) hrem_no
        rw [replaceKeysInText_match B hm]
        dsimp only
        rw [show quoted B ++ ws ++ ':' :: (replaceKeysInText A B rem).1 =
            '"' :: ((B ++ ['"']) ++ (ws ++ ':' :: (replaceKeysInText A B rem).1))
          from by simp [quoted]]
        have hb : patMatchKey B
            ('"' :: ((B ++ ['"']) ++ (ws ++ ':' :: (replaceKeysInText A B rem).1))) =
            some (ws, (replaceKeysInText A B rem).1) := by
          have hbuild := patMatchKey_build B ws (replaceKeysInText A B rem).1 hws
          rw [show quoted B ++ (ws ++ ':' :: (replaceKeysInText A B rem).1) =
              '"' :: ((B ++ ['"']) ++ (ws ++ ':' :: (replaceKeysInText A B rem).1))
            from by simp [quoted]] at hbuild
          exact hbuild
        rw [replaceKeysInText_match A hb]
        rw [hih]
        dsimp only
        rw [hdec]
        simp [List.append_assoc]
      | none =>
        have hnocs : hasKeyPattern B cs = false := by
          simp only [hasKeyPattern, Bool.or_eq_false_iff] at hno
          exact hno.2
        have hih := ih cs (by simp only [List.length_cons] at hD; omega) hnocs
        rw [replaceKeysInText_nomatch B hm]
        dsimp only
        cases hm2 : patMatchKey B (c :: (replaceKeysInText A B cs).1) with
        | none =>
          rw [replaceKeysInText_nomatch A hm2, hih]
        | some q =>
          exfalso
          obtain ⟨ws, rem⟩ := q
          obtain ⟨hdec2, hws2⟩ := patMatchKey_some_eq hm2
          rw [show quoted B ++ (ws ++ ':' :: rem) =
              '"' :: ((B ++ ['"']) ++ (ws ++ ':' :: rem)) from by simp [quoted]] at hdec2
          simp only [List.cons.injEq] at hdec2
          obtain ⟨hc, hFcs⟩ := hdec2
          rw [show (B ++ ['"']) ++ (ws ++ ':' :: rem) = B ++ '"' :: (ws ++ ':' :: rem)
            from by simp] at hFcs
          obtain ⟨ws₂, rest₂, hcs, hws₂⟩ := fwd_fragment_reflect A B hBne hBsane
            cs.length cs le_rfl B hBsane ws rem hFcs hws2
          have hbuild := patMatchKey_build B ws₂ rest₂ hws₂
          have hcc : c :: cs = quoted B ++ (ws₂ ++ ':' :: rest₂) := by
            rw [hc, hcs]; simp [quoted]
          rw [← hcc] at hbuild
          have htrue : hasKeyPattern B (c :: cs) = true := by
            simp only [hasKeyPattern, hbuild, Option.isSome_some, Bool.true_or]
          rw [hno] at htrue
          exact absurd htrue (by simp)

/-- C8: renaming key `A` to key `B` and then `B` back to `A` restores the
document text exactly, with equal replacement counts on the two passes, for
all nonempty keys free of quote, colon and whitespace characters, provided
the key pattern `"B"<ws>*:` occurs nowhere in the original document. -/
theorem rename_round_trip (A B D : Str)
    (hAne : A ≠ []) (hAsane : ∀ c ∈ A, c ≠ '"' ∧ c ≠ ':' ∧ goRegexSpace c = false)
    (hBne : B ≠ []) (hBsane : ∀ c ∈ B, c ≠ '"' ∧ c ≠ ':' ∧ goRegexSpace c = false)
    (hno : hasKeyPattern B D = false) :
    (replaceKeysInText B A (replaceKeysInText A B D).1).1 = D ∧
    (replaceKeysInText B A (replaceKeysInText A B D).1).2 =
      (replaceKeysInText A B D).2 := by
  have h := rename_round_trip_aux A B hBne hBsane D.length D le_rfl hno
  constructor
  · rw [h]
  · rw [h]

theorem rename_round_trip_witness :
    (replaceKeysInText (str "b") (str "a")
        (replaceKeysInText (str "a") (str "b") (str "\x7b\"a\": 1, \"c\": 2\x7d")).1).1
      = str "\x7b\"a\": 1, \"c\": 2\x7d" ∧
    (replaceKeysInText (str "b") (str "a")
        (replaceKeysInText (str "a") (str "b") (str "\x7b\"a\": 1, \"c\": 2\x7d")).1).2
      = (replaceKeysInText (str "a") (str "b") (str "\x7b\"a\": 1, \"c\": 2\x7d")).2 :=
  rename_round_trip (str "a") (str "b") (str "\x7b\"a\": 1, \"c\": 2\x7d")
    (by decide) (by decide) (by decide) (by decide) (by decide)

theorem trimSpace_append_comma (x : Str) :
    trimSpace (x ++ [',']) = x.dropWhile goIsSpace ++ [','] := by
  have hc : goIsSpace ',' = false := by decide
  unfold trimSpace
  rw [List.dropWhile_append]
  by_cases h : (x.dropWhile goIsSpace).isEmpty
  · rw [if_pos h]
    rw [List.isEmpty_iff.mp h]
    simp [List.dropWhile_cons, hc]
  · rw [if_neg h]
    rw [List.reverse_append]
    simp [List.dropWhile_cons, hc]

theorem commaFix_idem (l : Str) : commaFix (commaFix l) = commaFix l := by
  by_cases h : [','].isSuffixOf (trimSpace l) = true
  · have hl : commaFix l = l := by rw [commaFix, if_pos h]
    simp only [hl]
  · have hl : commaFix l = trimRightTS l ++ [','] := by rw [commaFix, if_neg h]
    have hs : [','].isSuffixOf (trimSpace (trimRightTS l ++ [','])) = true := by
      rw [trimSpace_append_comma]
      exact List.isSuffixOf_iff_suffix.mpr ⟨_, rfl⟩
    rw [hl, commaFix, if_pos hs]

theorem Frame_refl : ∀ l : List Str, Frame l l
  | [] => Frame.nil
  | x :: xs => Frame.keep x (Frame_refl xs)

theorem Frame_skips (block : List Str) {orig res : List Str} (h : Frame orig res) :
    Frame orig (block ++ res) := by
  induction block with
  | nil => exact h
  | cons x bl ih => exact Frame.skip x ih

theorem Frame_nil_left (b : List Str) (h : Frame b []) : b = [] := by
  cases h; rfl

theorem Frame_trans_aux : ∀ n (c b a : List Str), c.length ≤ n →
    Frame a b → Frame b c → Frame a c := by
  intro n
  induction n with
  | zero =>
    intro c b a hc h₁ h₂
    obtain rfl : c = [] := List.length_eq_zero.mp (Nat.le_zero.mp hc)
    obtain rfl : b = [] := Frame_nil_left b h₂
    obtain rfl : a = [] := Frame_nil_left a h₁
    exact Frame.nil
  | succ n ih =>
    intro c b a hc h₁ h₂
    cases h₂ with
    | nil =>
      obtain rfl : a = [] := Frame_nil_left a h₁
      exact Frame.nil
    | skip x h₂' =>
      refine Frame.skip x (ih _ _ _ ?_ h₁ h₂')
      simp only [List.length_cons] at hc; omega
    | keep l h₂' =>
      cases h₁ with
      | keep _ h₁' =>
        refine Frame.keep l (ih _ _ _ ?_ h₁' h₂')
        simp only [List.length_cons] at hc; omega
      | skip _ h₁' =>
        refine Frame.skip l (ih _ _ _ ?_ h₁' h₂')
        simp only [List.length_cons] at hc; omega
      | comma l₀ x h₁' =>
        cases h₂' with
        | skip y h₂'' =>
          refine Frame.comma l₀ y (ih _ _ _ ?_ (Frame.skip x h₁') h₂'')
          simp only [List.length_cons] at hc; omega
        | keep _ h₂'' =>
          refine Frame.comma l₀ x (ih _ _ _ ?_ h₁' h₂'')
          simp only [List.length_cons] at hc; omega
        | comma _ y h₂'' =>
          refine Frame.comma l₀ (commaFix x) (Frame.skip y (ih _ _ _ ?_ h₁' h₂''))
          simp only [List.length_cons] at hc; omega
    | comma l x h₂' =>
      cases h₁ with
      | keep _ h₁' =>
        refine Frame.comma l x (ih _ _ _ ?_ h₁' h₂')
        simp only [List.length_cons] at hc; omega
      | skip _ h₁' =>
        refine Frame.skip (commaFix l) (Frame.skip x (ih _ _ _ ?_ h₁' h₂'))
        simp only [List.length_cons] at hc; omega
      | comma l₀ x₁ h₁' =>
        rw [commaFix_idem]
        refine Frame.comma l₀ x (ih _ _ _ ?_ (Frame.skip x₁ h₁') h₂')
        simp only [List.length_cons] at hc; omega

theorem Frame_trans {a b c : List Str} (h₁ : Frame a b) (h₂ : Frame b c) : Frame a c :=
  Frame_trans_aux c.length c b a le_rfl h₁ h₂

theorem Frame_splice (b : List Str) (p : Nat) (block : List Str) :
    Frame b (b.take (p + 1) ++ block ++ b.drop (p + 1)) := by
  induction b generalizing p with
  | nil => simpa using Frame_skips block Frame.nil
  | cons x xs ih =>
    cases p with
    | zero =>
      have hsh : (x :: xs).take 1 ++ block ++ (x :: xs).drop 1 = x :: (block ++ xs) := by
        simp
      rw [hsh]
      exact Frame.keep x (Frame_skips block (Frame_refl xs))
    | succ p' =>
      have hsh : (x :: xs).take (p' + 1 + 1) ++ block ++ (x :: xs).drop (p' + 1 + 1) =
          x :: (xs.take (p' + 1) ++ block ++ xs.drop (p' + 1)) := by
        simp [List.take_succ_cons, List.drop_succ_cons]
      rw [hsh]
      exact Frame.keep x (ih p')

theorem Frame_splice_commaFix : ∀ (b : List Str) (p : Nat) (block : List Str), block ≠ [] →
    Frame b (spliceAfter p block (commaFixAt p b)) := by
  intro b
  induction b with
  | nil =>
    intro p block _
    have hcf : commaFixAt p [] = [] := by cases p <;> rfl
    rw [hcf]
    unfold spliceAfter
    simpa using Frame_skips block Frame.nil
  | cons x xs ih =>
    intro p block hbl
    cases p with
    | zero =>
      rw [show commaFixAt 0 (x :: xs) = (if xs = [] then x else commaFix x) :: xs from rfl]
      unfold spliceAfter
      by_cases hxs : xs = []
      · subst hxs
        rw [if_pos rfl]
        have hsh : ([x] : List Str).take 1 ++ block ++ ([x] : List Str).drop 1 =
            x :: block := by simp
        rw [hsh]
        exact Frame.keep x (by simpa using Frame_skips block Frame.nil)
      · rw [if_neg hxs]
        cases block with
        | nil => exact absurd rfl hbl
        | cons y bl =>
          have hsh : (commaFix x :: xs).take 1 ++ (y :: bl) ++ (commaFix x :: xs).drop 1 =
              commaFix x :: y :: (bl ++ xs) := by simp
          rw [hsh]
          exact Frame.comma x y (Frame_skips bl (Frame_refl xs))
    | succ p' =>
      rw [show commaFixAt (p' + 1) (x :: xs) = x :: commaFixAt p' xs from rfl]
      unfold spliceAfter
      have hsh : (x :: commaFixAt p' xs).take (p' + 1 + 1) ++ block ++
          (x :: commaFixAt p' xs).drop (p' + 1 + 1) =
          x :: ((commaFixAt p' xs).take (p' + 1) ++ block ++
            (commaFixAt p' xs).drop (p' + 1)) := by
        simp [List.take_succ_cons, List.drop_succ_cons]
      rw [hsh]
      exact Frame.keep x (by simpa [spliceAfter] using ih p' block hbl)

theorem Frame_insertOccurrence (nk : Str) (fl : List Str) (hfl : fl ≠ []) (t : Nat)
    (res : List Str) : Frame res (insertOccurrence nk fl t res) := by
  unfold insertOccurrence
  cases hfe : findEndOfValue res t with
  | none => exact Frame_refl res
  | some e =>
    dsimp only
    apply Frame_splice_commaFix
    intro hcontra
    have h1 : (adjustLastComma (mkBlock (getIndentation (res.getD t [])) nk fl) e
        (commaFixAt e res)).length = fl.length := by
      rw [adjustLastComma_length, mkBlock_length]
    rw [hcontra] at h1
    exact hfl (List.length_eq_zero.mp h1.symm)

theorem Frame_foldfold (nk : Str) (fl : List Str) (hfl : fl ≠ []) :
    ∀ (ts : List Nat) (lines : List Str),
      Frame lines (ts.foldr (insertOccurrence nk fl) lines) := by
  intro ts
  induction ts with
  | nil => intro lines; exact Frame_refl lines
  | cons t ts' ih =>
    intro lines
    rw [List.foldr_cons]
    exact Frame_trans (ih lines) (Frame_insertOccurrence nk fl hfl t _)

theorem Frame_arrayObjectsLoop (lines : List Str) (key vj : Str) (ali : Nat) :
    ∀ (rem : List Str) (i : Nat) (bd brd : Int) (inT : Bool) (out : List Str),
      insertIntoArrayObjectsLoop lines key vj ali rem i bd brd inT = some out →
      Frame rem out := by
  intro rem
  induction rem with
  | nil =>
    intro i bd brd inT out h
    exact absurd h (by simp [insertIntoArrayObjectsLoop])
  | cons line rest ih =>
    intro i bd brd inT out h
    simp only [insertIntoArrayObjectsLoop] at h
    split at h
    case isTrue hin =>
      split at h
      case isTrue hstop =>
        simp only [Option.some.injEq] at h
        subst h
        exact Frame.keep line (Frame_skips _ (Frame_refl rest))
      case isFalse hstop =>
        split at h
        · exact absurd h (by simp)
        · rename_i out₀ hrec
          simp only [Option.some.injEq] at h
          subst h
          exact Frame.keep line (Frame_skips _ (ih _ _ _ _ _ hrec))
    case isFalse hin =>
      split at h
      · exact absurd h (by simp)
      · rename_i out₀ hrec
        simp only [Option.some.injEq] at h
        subst h
        exact Frame.keep line (ih _ _ _ _ _ hrec)

/-- C1: every successful insertion (`InsertJSONKeyValue` at the root, at a
named object path, or into an array, and `InsertItemAfter`) produces a
document whose lines stand in the `Frame` relation to the original
document's lines: original lines are preserved byte-identically and in
order, the engines only splice in whole new lines, and the only other edit
is the conditional trailing comma given to a line immediately preceding an
inserted line — every line not adjacent to an insertion point is
byte-identical in the result. -/
theorem insertion_frame_fidelity
    (jsonStr objectPath key valueJSON targetKey newObjectKey fmtStr : Str) :
    (∀ r, InsertJSONKeyValue jsonStr objectPath key valueJSON = some (r, none) →
      ∃ ls, r = joinL ls ∧ Frame (splitL jsonStr) ls) ∧
    (∀ r, InsertItemAfterCore jsonStr targetKey newObjectKey fmtStr = (r, none) →
      ∃ ls, r = joinL ls ∧ Frame (splitL jsonStr) ls) := by
  constructor
  · intro r h
    unfold InsertJSONKeyValue at h
    split at h
    case isTrue =>
      simp only [Option.some.injEq] at h
      unfold insertAtRoot at h
      simp only [] at h
      split at h
      · simp only [Prod.mk.injEq] at h
        exact absurd h.2 (by simp)
      · split at h
        · simp only [Prod.mk.injEq] at h
          exact absurd h.2 (by simp)
        · simp only [Prod.mk.injEq] at h
          exact ⟨_, h.1.symm, Frame_splice (splitL jsonStr) _ _⟩
    case isFalse =>
      unfold insertAtContextPath at h
      simp only [] at h
      split at h
      · exact absurd h (by simp)
      · split at h
        case isFalse => exact absurd h (by simp)
        case isTrue =>
          split at h
          case isTrue =>
            split at h
            case isTrue =>
              unfold insertIntoArrayObjects at h
              split at h
              · exact absurd h (by simp)
              · split at h
                · exact absurd h (by simp)
                · rename_i res hrec
                  simp only [Option.some.injEq, Prod.mk.injEq] at h
                  exact ⟨res, h.1.symm,
                    Frame_arrayObjectsLoop (splitL jsonStr) key valueJSON _ _ _ _ _ _ _ hrec⟩
            case isFalse =>
              simp only [Option.some.injEq] at h
              unfold insertIntoArrayValues at h
              simp only [] at h
              simp only [Prod.mk.injEq] at h
              exact ⟨_, h.1.symm, Frame_splice (splitL jsonStr) _ _⟩
          case isFalse =>
            split at h
            case isTrue =>
              split at h
              · exact absurd h (by simp)
              · simp only [Option.some.injEq] at h
                unfold insertIntoObject at h
                simp only [] at h
                simp only [Prod.mk.injEq] at h
                exact ⟨_, h.1.symm, Frame_splice (splitL jsonStr) _ _⟩
            case isFalse => exact absurd h (by simp)
  · intro r h
    unfold InsertItemAfterCore at h
    simp only [] at h
    split at h
    · simp only [Prod.mk.injEq] at h
      exact absurd h.2 (by simp)
    · split at h
      · simp only [Prod.mk.injEq] at h
        exact absurd h.2 (by simp)
      · simp only [Prod.mk.injEq] at h
        exact ⟨_, h.1.symm,
          Frame_foldfold newObjectKey (splitL fmtStr) (splitL_ne_nil fmtStr) _ _⟩

theorem insertion_frame_fidelity_witness :
    ∃ ls, str "\x7b\n  \"b\": 2,\n  \"a\": 1\n\x7d" = joinL ls ∧
      Frame (splitL (str "\x7b\n  \"a\": 1\n\x7d")) ls :=
  (insertion_frame_fidelity (str "\x7b\n  \"a\": 1\n\x7d") (str "") (str "b") (str "2")
      (str "k") (str "n") (str "1")).1
    (str "\x7b\n  \"b\": 2,\n  \"a\": 1\n\x7d") (by decide)
